import Mathlib

/-!
Verification of the polysearch hybrid driver (packages/polysearch/src):
the URL normalization, result deduplication/ordering, the page-round search
loop of the hybrid driver, suggestion deduplication, the TTL cache, and the
manager factory.  JavaScript strings are modelled as lists of characters;
platform primitives used by the source (the WHATWG URL parser restricted to
the http/https subset actually exercised, insertion-ordered maps as
association lists, the stable array sort, settled promises as Except values)
are modelled explicitly below, next to their uses.
-/

/-- A JavaScript string, modelled as its list of characters. -/
abbrev JSStr := List Char

/-- Model of the JavaScript whitespace test used by `trim` (ASCII subset). -/
def jsWs (c : Char) : Bool :=
  c = ' ' || c = '\t' || c = '\r' || c = '\n'

/-- Model of `String.prototype.trim`: drop whitespace on both ends. -/
def jsTrim (l : JSStr) : JSStr :=
  ((l.dropWhile jsWs).reverse.dropWhile jsWs).reverse

/-- Model of `String.prototype.toLowerCase` (per character, ASCII range). -/
def jsLower (l : JSStr) : JSStr :=
  l.map Char.toLower

/-- The seven tracking query parameters removed by `normalizeUrl`
(google.ts lines 170-178). -/
def trackingNames : List JSStr :=
  ["utm_source".data, "utm_medium".data, "utm_campaign".data,
   "utm_term".data, "utm_content".data, "fbclid".data, "gclid".data]

/-- The `www.` prefix literal tested by `normalizeUrl`. -/
def wwwDot : JSStr := ['w', 'w', 'w', '.']

/-- The `www.`-stripping step of `normalizeUrl`: the source tests
`normalized.startsWith("www.")` on the whole string and then drops the
first four characters. -/
def wwwStrip (l : JSStr) : JSStr :=
  if wwwDot.isPrefixOf l then l.drop 4 else l

/-- The trailing-slash-stripping step of `normalizeUrl`:
`normalized.endsWith("/")` followed by `slice(0, -1)`. -/
def slashStrip (l : JSStr) : JSStr :=
  if l.getLast? = some '/' then l.dropLast else l

/-- The string handed by `normalizeUrl` to `new URL(...)`:
`url.trim().toLowerCase()`, then the `www.` strip, then the slash strip. -/
def preProcess (u : JSStr) : JSStr :=
  slashStrip (wwwStrip (jsLower (jsTrim u)))

/-- Split a character list at every occurrence of `sep`. -/
def splitSep (sep : Char) : JSStr → List JSStr
  | [] => [[]]
  | c :: t =>
    if c = sep then [] :: splitSep sep t
    else
      match splitSep sep t with
      | [] => [[c]]
      | h :: r => (c :: h) :: r

/-- One `name=value` pair of a query string (`name` when no `=` is present,
with an empty value, as URLSearchParams serializes it). -/
def parsePair (seg : JSStr) : JSStr × JSStr :=
  (seg.takeWhile (fun c => ¬ c = '='), (seg.dropWhile (fun c => ¬ c = '=')).drop 1)

/-- Model of URLSearchParams parsing: split on ampersands, drop empty
segments, split each segment at its first equals sign. -/
def parseQuery (s : JSStr) : List (JSStr × JSStr) :=
  ((splitSep '&' s).filter (fun seg => ¬ seg = [])).map parsePair

/-- Model of URLSearchParams serialization. -/
def serializeQuery : List (JSStr × JSStr) → JSStr
  | [] => []
  | [p] => p.1 ++ '=' :: p.2
  | p :: rest => p.1 ++ '=' :: p.2 ++ '&' :: serializeQuery rest

/-- A parsed URL, covering the http/https subset of the WHATWG parser that
`normalizeUrl` relies on: scheme, authority, raw path, parsed query. -/
structure URLParts where
  scheme : JSStr
  host : JSStr
  path : JSStr
  query : List (JSStr × JSStr)
deriving DecidableEq

/-- Model of `new URL(s)` on the subset exercised by the hybrid driver:
an explicit `http://` or `https://` scheme, a nonempty authority without
userinfo, port, or fragment.  Outside this subset the model fails, as the
real parser does on every scheme-less input that `normalizeUrl` receives. -/
def parseURL (s : JSStr) : Option URLParts :=
  if '#' ∈ s ∨ '\\' ∈ s ∨ ' ' ∈ s then none
  else
    match
      (if "https://".data.isPrefixOf s then some ("https".data, s.drop 8)
       else if "http://".data.isPrefixOf s then some ("http".data, s.drop 7)
       else none) with
    | none => none
    | some (scheme, rest) =>
      let auth := rest.takeWhile (fun c => ¬ (c = '/' ∨ c = '?'))
      let after := rest.drop auth.length
      if auth = [] ∨ ':' ∈ auth ∨ '@' ∈ auth then none
      else
        let path := after.takeWhile (fun c => ¬ c = '?')
        let q := after.drop path.length
        some ⟨scheme, auth, path, parseQuery (q.drop 1)⟩

/-- Model of `URL.prototype.toString` on the same subset: an empty path
serializes as `/`, an empty parameter list contributes no `?`. -/
def serializeURL (p : URLParts) : JSStr :=
  p.scheme ++ "://".data ++ p.host ++ (if p.path = [] then ['/'] else p.path) ++
    (if p.query = [] then [] else '?' :: serializeQuery p.query)

/-- `normalizeUrl` (google.ts lines 154-186): lowercase the trimmed string,
strip a literal `www.` string prefix, strip one trailing slash, parse as a
URL and delete the tracking parameters; if parsing fails, return the
trimmed lowercased original string. -/
def normalizeUrl (u : JSStr) : JSStr :=
  match parseURL (preProcess u) with
  | some parts =>
    serializeURL { parts with query := parts.query.filter (fun p => ¬ p.1 ∈ trackingNames) }
  | none => jsLower (jsTrim u)

example : normalizeUrl "https://www.example.com".data = "https://www.example.com/".data := by decide
example : normalizeUrl "https://example.com".data = "https://example.com/".data := by decide
example : normalizeUrl "example.com".data = "example.com".data := by decide
example : normalizeUrl "example.com/".data = "example.com/".data := by decide
example : normalizeUrl "https://a.com/p/?utm_source=x".data = "https://a.com/p/".data := by decide
example : normalizeUrl "https://a.com/p/".data = "https://a.com/p".data := by decide
example : normalizeUrl "HTTPS://A.com/p?utm_medium=m&b=2".data = "https://a.com/p?b=2".data := by decide

/-- A raw result as returned by one driver call (`SearchResult` in types.ts). -/
structure RawResult where
  title : JSStr
  url : JSStr
  snippet : Option JSStr
deriving DecidableEq

/-- `WeightedSearchResult` (google.ts lines 144-151): a raw result plus the
driver weight, the contributing driver names, and the 1-based rank. -/
structure WRes where
  title : JSStr
  url : JSStr
  snippet : Option JSStr
  weight : ℚ
  sources : List JSStr
  rank : Nat
deriving DecidableEq

/-- First-match lookup in an insertion-ordered association list
(model of `Map.prototype.get`). -/
def lookupA (k : JSStr) : List (JSStr × α) → Option α
  | [] => none
  | (k1, v) :: t => if k = k1 then some v else lookupA k t

/-- Model of `Map.prototype.set`: replace in place if the key is present,
append otherwise. -/
def setA (k : JSStr) (v : α) : List (JSStr × α) → List (JSStr × α)
  | [] => [(k, v)]
  | (k1, v1) :: t => if k = k1 then (k, v) :: t else (k1, v1) :: setA k v t

/-- First-occurrence deduplication of a string list, the model of
`[...new Set(xs)]` used for merged `sources`. -/
def dedupFirst (seen : List JSStr) : List JSStr → List JSStr
  | [] => []
  | s :: t => if s ∈ seen then dedupFirst seen t else s :: dedupFirst (s :: seen) t

/-- The in-place merge performed by `deduplicateResults` on a key collision
(google.ts lines 201-219): union the sources; a strictly heavier result takes
over title, snippet, weight and rank; an equal-weight result with a smaller
rank updates the rank only. -/
def mergeInto (e r : WRes) : WRes :=
  let e1 : WRes := { e with sources := dedupFirst [] (e.sources ++ r.sources) }
  if e1.weight < r.weight then
    { e1 with weight := r.weight, title := r.title, snippet := r.snippet, rank := r.rank }
  else if r.weight = e1.weight ∧ r.rank < e1.rank then
    { e1 with rank := r.rank }
  else e1

/-- One step of the accumulation into `urlMap` (google.ts lines 194-220). -/
def dedupStep (m : List (JSStr × WRes)) (r : WRes) : List (JSStr × WRes) :=
  match lookupA (normalizeUrl r.url) m with
  | none => setA (normalizeUrl r.url) r m
  | some e => setA (normalizeUrl r.url) (mergeInto e r) m

/-- The whole `urlMap` accumulation over a result list. -/
def dedupFold (rs : List WRes) : List (JSStr × WRes) :=
  rs.foldl dedupStep []

/-- The final score of a result: `rank / weight` (lower is better). -/
def score (r : WRes) : ℚ := (r.rank : ℚ) / r.weight

/-- The Boolean order induced by the sort comparator of `deduplicateResults`
(google.ts lines 223-234): ascending score, ties broken by descending
weight. -/
def resLe (a b : WRes) : Bool :=
  decide (score a < score b) || (decide (score a = score b) && decide (b.weight ≤ a.weight))

/-- Stable insertion of an element into a sorted list. -/
def insertSorted (le : α → α → Bool) (x : α) : List α → List α
  | [] => [x]
  | y :: ys => if le x y then x :: y :: ys else y :: insertSorted le x ys

/-- Stable sort (the model of `Array.prototype.sort`, which is specified to
be stable, applied with the comparator modelled by `resLe`). -/
def sortByLe (le : α → α → Bool) (l : List α) : List α :=
  l.foldr (insertSorted le) []

/-- `deduplicateResults` (google.ts lines 189-237): accumulate into the
url-keyed map, then sort the values by the weighted-score comparator. -/
def deduplicateResults (rs : List WRes) : List WRes :=
  sortByLe resLe ((dedupFold rs).map (fun p => p.2))

/-- The maximal weight of a result group (0 on the empty group, which never
arises). -/
def maxWeightOf : List WRes → ℚ
  | [] => 0
  | x :: xs => xs.foldl (fun m r => max m r.weight) x.weight

/-- The first member of a group carrying the group's maximal weight. -/
def firstMaxOf (g : List WRes) : Option WRes :=
  g.find? (fun x => decide (maxWeightOf g ≤ x.weight))

/-- Folding a whole collision group into its first member. -/
def mergeRun (c : WRes) (g : List WRes) : WRes :=
  g.foldl mergeInto c

/-- The normalization used by `deduplicateSuggestions`:
`suggestion.toLowerCase().trim()`. -/
def sugNorm (s : JSStr) : JSStr := jsTrim (jsLower s)

/-- The loop body of `deduplicateSuggestions` (google.ts lines 240-253),
with the `seen` set made explicit: keep a suggestion when its normalization
is unseen and nonempty, remembering the normalization. -/
def dedupSugAux (seen : List JSStr) : List JSStr → List JSStr
  | [] => []
  | s :: t =>
    if ¬ sugNorm s ∈ seen ∧ ¬ sugNorm s = [] then s :: dedupSugAux (sugNorm s :: seen) t
    else dedupSugAux seen t

/-- `deduplicateSuggestions` (google.ts lines 240-253). -/
def deduplicateSuggestions (l : List JSStr) : List JSStr :=
  dedupSugAux [] l

/-- One configured driver of the hybrid driver, for the suggest path.  The
settled outcome of its (possibly timeout-raced) `suggest` call is recorded
as a function of nothing: `none` when the driver exposes no `suggest`,
`some (.error ())` for a rejection or timeout, `some (.ok l)` for a
fulfilled call. -/
structure SDriver where
  name : JSStr
  outcome : Option (Except Unit (List JSStr))

/-- The flat list of suggestions collected from the settled driver promises
(google.ts lines 397-426): drivers without `suggest` contribute `[]`,
rejected or timed-out drivers are skipped, fulfilled arrays are concatenated
in driver order. -/
def collectSuggestions (drivers : List SDriver) : List JSStr :=
  drivers.flatMap (fun d =>
    match d.outcome with
    | none => []
    | some (Except.error _) => []
    | some (Except.ok l) => l)

/-- `hybridDriver.suggest` (google.ts lines 388-432): empty trimmed query
short-circuits to `[]`; otherwise collect the fulfilled suggestion lists and
deduplicate them. -/
def hybridSuggest (drivers : List SDriver) (query : JSStr) : List JSStr :=
  if jsTrim query = [] then []
  else deduplicateSuggestions (collectSuggestions drivers)

/-- One configured driver of the hybrid driver, for the search path.  For
each provider-native page, the settled outcome of the (possibly
timeout-raced) `search` call: `.error ()` for a rejection or timeout,
`.ok (results, totalResults)` for a fulfilled call.  Timeouts are modelled
as rejections, which is exactly how `withTimeout` (google.ts lines 256-266)
surfaces them to `Promise.allSettled`. -/
structure HDriver where
  name : JSStr
  weight : ℚ
  call : Nat → Except Unit (List RawResult × Option Int)

/-- Attach weight, source and rank to one fulfilled driver page
(google.ts lines 346-353): the result at 0-based index `i` of page
`driverPage` receives rank `(driverPage-1)*perPage + i + 1`; `rank0` is the
rank already consumed, i.e. `(driverPage-1)*perPage + i`. -/
def weightResults (weight : ℚ) (name : JSStr) : Nat → List RawResult → List WRes
  | _, [] => []
  | rank0, r :: rs =>
    ⟨r.title, r.url, r.snippet, weight, [name], rank0 + 1⟩ :: weightResults weight name (rank0 + 1) rs

/-- The weighted results contributed by one round: fulfilled drivers in
configuration order, failed drivers contributing nothing. -/
def roundResults (drivers : List HDriver) (perPage driverPage : Nat) : List WRes :=
  drivers.flatMap (fun d =>
    match d.call driverPage with
    | Except.error _ => []
    | Except.ok (rs, _) => weightResults d.weight d.name ((driverPage - 1) * perPage) rs)

/-- The per-driver total recording (google.ts lines 322-329): only when the
name is not yet present, and only a defined, strictly positive total. -/
def recordTotal (acc : List (JSStr × Int)) (name : JSStr) (tot : Option Int) : List (JSStr × Int) :=
  match lookupA name acc with
  | some _ => acc
  | none =>
    match tot with
    | none => acc
    | some t => if 0 < t then acc ++ [(name, t)] else acc

/-- The totals contribution of one settled driver call. -/
def totalsStep (driverPage : Nat) (a : List (JSStr × Int)) (d : HDriver) :
    List (JSStr × Int) :=
  match d.call driverPage with
  | Except.error _ => a
  | Except.ok (_, tot) => recordTotal a d.name tot

/-- The totals recorded during one round, fulfilled drivers in configuration
order. -/
def roundTotals (drivers : List HDriver) (driverPage : Nat) (acc : List (JSStr × Int)) :
    List (JSStr × Int) :=
  drivers.foldl (totalsStep driverPage) acc

/-- The mutable state of the page-round loop of `hybridDriver.search`:
the deduplicated accumulator, the recorded totals, and the number of rounds
executed so far. -/
structure LoopState where
  allResults : List WRes
  totals : List (JSStr × Int)
  rounds : Nat
deriving DecidableEq

/-- The body of one round (google.ts lines 307-360): fetch the page from
every driver, record totals, append the fulfilled weighted results, and
re-deduplicate the accumulator. -/
def stepRound (drivers : List HDriver) (perPage driverPage : Nat) (st : LoopState) : LoopState :=
  { allResults := deduplicateResults (st.allResults ++ roundResults drivers perPage driverPage),
    totals := roundTotals drivers driverPage st.totals,
    rounds := st.rounds + 1 }

/-- The page-round loop (google.ts lines 307-368): while the accumulated
count is below `targetCount` and pages remain (the fuel starts at
`maxPages = 5`), run one round and stop early once the target is
reached. -/
def searchLoop (drivers : List HDriver) (perPage targetCount : Nat) :
    Nat → Nat → LoopState → LoopState
  | 0, _, st => st
  | fuel + 1, driverPage, st =>
    if st.allResults.length < targetCount then
      if targetCount ≤ (stepRound drivers perPage driverPage st).allResults.length then
        stepRound drivers perPage driverPage st
      else
        searchLoop drivers perPage targetCount fuel (driverPage + 1)
          (stepRound drivers perPage driverPage st)
    else st

/-- `SearchResponse` (types.ts): the result page, the optional total
estimate, the optional pagination echo. -/
structure SearchResponse where
  results : List WRes
  totalResults : Option Int
  pagination : Option (Nat × Nat)
deriving DecidableEq

/-- Sum of the recorded per-driver totals. -/
def sumTotals (l : List (JSStr × Int)) : Int :=
  (l.map (fun p => p.2)).sum

/-- `hybridDriver.search` (google.ts lines 290-386): empty trimmed query
returns an empty response at once; otherwise run up to five page rounds,
slice the requested window out of the deduplicated accumulator, and report
either the summed driver totals or the gathered count. -/
def hybridSearch (drivers : List HDriver) (query : JSStr) (page perPage : Nat) : SearchResponse :=
  if jsTrim query = [] then ⟨[], none, none⟩
  else
    let targetCount := page * perPage
    let final := searchLoop drivers perPage targetCount 5 1 ⟨[], [], 0⟩
    let est := sumTotals final.totals
    ⟨(final.allResults.drop ((page - 1) * perPage)).take perPage,
     some (if 0 < est then est else (final.allResults.length : Int)),
     some (page, perPage)⟩

/-- The cache state: key, stored response, and the storage mtime recorded at
`set` time, in milliseconds.  This models the enabled branch of
`createCache` (cache.ts) over a storage backend that reports each entry's
modification time, the behavior the `get` logic is written against. -/
structure CacheState where
  entries : List (JSStr × (SearchResponse × ℚ))
deriving DecidableEq

/-- Remove one key (model of `storage.removeItem`). -/
def removeA (k : JSStr) : List (JSStr × α) → List (JSStr × α)
  | [] => []
  | (k1, v) :: t => if k = k1 then t else (k1, v) :: removeA k t

/-- `createCache(...).set` (cache.ts lines 58-61): store the value, the
backend stamping the current time as the entry's mtime. -/
def cacheSet (st : CacheState) (key : JSStr) (v : SearchResponse) (now : ℚ) : CacheState :=
  ⟨setA key (v, now) st.entries⟩

/-- `createCache(...).get` (cache.ts lines 39-56): miss on an absent key;
on a present key compare the age in seconds against the TTL, removing and
missing when strictly older; otherwise return the stored value.  The call
returns the read result together with the (possibly pruned) state. -/
def cacheGet (ttl : ℚ) (st : CacheState) (key : JSStr) (now : ℚ) :
    Option SearchResponse × CacheState :=
  match lookupA key st.entries with
  | none => (none, st)
  | some (v, mtime) =>
    if (now - mtime) / 1000 > ttl then (none, ⟨removeA key st.entries⟩)
    else (some v, st)

/-- A driver as consumed by `createPolySearch` (search.ts): a total search
function and an optional suggest function. -/
structure PolyDriver where
  search : JSStr × Nat × Nat → SearchResponse
  suggest : Option (JSStr → List JSStr)

/-- The manager returned by `createPolySearch`. -/
structure PolySearchManager where
  search : JSStr × Nat × Nat → SearchResponse
  suggest : JSStr → List JSStr

/-- `createPolySearch` (search.ts lines 3-19): pass the driver's search
through; use the driver's suggest when present, otherwise the fallback that
resolves to the empty array. -/
def createPolySearch (driver : PolyDriver) : PolySearchManager :=
  { search := driver.search,
    suggest :=
      match driver.suggest with
      | some f => f
      | none => fun _ => [] }

/-- The body of `normalizeUrl` as a function of the trimmed lowercased
string: `normalizeUrl u` factors through `jsLower (jsTrim u)`. -/
def normCore (w : JSStr) : JSStr :=
  match parseURL (slashStrip (wwwStrip w)) with
  | some parts =>
    serializeURL { parts with query := parts.query.filter (fun p => ¬ p.1 ∈ trackingNames) }
  | none => w

theorem normalizeUrl_eq_normCore (u : JSStr) :
    normalizeUrl u = normCore (jsLower (jsTrim u)) := rfl

theorem jsWs_false_of_ge (c : Char) (h : 65 ≤ c.toNat) : jsWs c = false := by
  have h1 : ¬ c = ' ' := fun e => by subst e; exact absurd h (by decide)
  have h2 : ¬ c = '\t' := fun e => by subst e; exact absurd h (by decide)
  have h3 : ¬ c = '\r' := fun e => by subst e; exact absurd h (by decide)
  have h4 : ¬ c = '\n' := fun e => by subst e; exact absurd h (by decide)
  simp [jsWs, h1, h2, h3, h4]

theorem char_toNat_ofNat_valid (n : Nat) (h : n.isValidChar) : (Char.ofNat n).toNat = n := by
  rw [Char.ofNat, dif_pos h]; rfl

theorem jsWs_toLower (c : Char) : jsWs (Char.toLower c) = jsWs c := by
  rw [Char.toLower]
  by_cases h : c.toNat ≥ 65 ∧ c.toNat ≤ 90
  · rw [if_pos h]
    have hv : Nat.isValidChar (c.toNat + 32) := Or.inl (by omega)
    have ht : (Char.ofNat (c.toNat + 32)).toNat = c.toNat + 32 := char_toNat_ofNat_valid _ hv
    rw [jsWs_false_of_ge _ (by omega), jsWs_false_of_ge _ h.1]
  · rw [if_neg h]

theorem toLower_eq_slash (c : Char) (h : Char.toLower c = '/') : c = '/' := by
  rw [Char.toLower] at h
  by_cases hc : c.toNat ≥ 65 ∧ c.toNat ≤ 90
  · rw [if_pos hc] at h
    have hv : Nat.isValidChar (c.toNat + 32) := Or.inl (by omega)
    have ht := char_toNat_ofNat_valid (c.toNat + 32) hv
    rw [h] at ht
    exact absurd ht (by intro e; have : (47 : Nat) = c.toNat + 32 := e; omega)
  · rwa [if_neg hc] at h

theorem jsTrim_jsLower (u : JSStr) : jsTrim (jsLower u) = jsLower (jsTrim u) := by
  have hp : (fun c => jsWs (Char.toLower c)) = jsWs := funext jsWs_toLower
  unfold jsTrim jsLower
  rw [List.dropWhile_map]
  show ((List.map Char.toLower (u.dropWhile fun c => jsWs (Char.toLower c))).reverse.dropWhile jsWs).reverse = _
  rw [hp, ← List.map_reverse, List.dropWhile_map]
  show (List.map Char.toLower ((u.dropWhile jsWs).reverse.dropWhile fun c => jsWs (Char.toLower c))).reverse = _
  rw [hp, ← List.map_reverse]

theorem dropWhile_of_trim_self (u : JSStr) (h : jsTrim u = u) :
    u.dropWhile jsWs = u ∧ u.reverse.dropWhile jsWs = u.reverse := by
  have hlen := congrArg List.length h
  simp only [jsTrim, List.length_reverse] at hlen
  have s1 : List.Sublist (u.dropWhile jsWs) u := List.dropWhile_sublist _
  have s2 : List.Sublist ((u.dropWhile jsWs).reverse.dropWhile jsWs) (u.dropWhile jsWs).reverse :=
    List.dropWhile_sublist _
  have l2 := s2.length_le
  simp only [List.length_reverse] at l2
  have e1 : u.dropWhile jsWs = u := s1.eq_of_length (by have := s1.length_le; omega)
  refine ⟨e1, ?_⟩
  rw [e1] at hlen
  have s3 : List.Sublist (u.reverse.dropWhile jsWs) u.reverse := List.dropWhile_sublist _
  exact s3.eq_of_length (by simp only [List.length_reverse]; omega)

theorem jsTrim_concat_slash (u : JSStr) (h : jsTrim u = u) :
    jsTrim (u ++ ['/']) = u ++ ['/'] := by
  obtain ⟨h1, _⟩ := dropWhile_of_trim_self u h
  unfold jsTrim
  rw [List.dropWhile_append]
  have hsl : jsWs '/' = false := by decide
  cases u with
  | nil => simp [List.dropWhile, hsl]
  | cons x t =>
    have hne : ((x :: t).dropWhile jsWs).isEmpty = false := by
      rw [h1]; rfl
    rw [hne]
    simp only [Bool.false_eq_true, if_false, h1, List.reverse_append]
    simp [List.dropWhile, hsl]

theorem wwwPrefix_concat (w : JSStr) :
    wwwDot.isPrefixOf (w ++ ['/']) = wwwDot.isPrefixOf w := by
  match w with
  | [] => decide
  | [a] => simp [wwwDot, List.isPrefixOf]
  | [a, b] => simp [wwwDot, List.isPrefixOf]
  | [a, b, c] => simp [wwwDot, List.isPrefixOf]
  | a :: b :: c :: d :: t => simp [wwwDot, List.isPrefixOf]

theorem wwwStrip_concat (w : JSStr) : wwwStrip (w ++ ['/']) = wwwStrip w ++ ['/'] := by
  unfold wwwStrip
  rw [wwwPrefix_concat]
  by_cases h : wwwDot.isPrefixOf w
  · rw [if_pos h, if_pos h]
    match w, h with
    | [], h => exact absurd h (by decide)
    | [a], h => simp [wwwDot, List.isPrefixOf] at h
    | [a, b], h => simp [wwwDot, List.isPrefixOf] at h
    | [a, b, c], h => simp [wwwDot, List.isPrefixOf] at h
    | a :: b :: c :: d :: t, _ => rfl
  · rw [if_neg h, if_neg h]

theorem getLast?_push (l : List α) (a : α) (h : l ≠ []) : (a :: l).getLast? = l.getLast? := by
  cases l with
  | nil => exact absurd rfl h
  | cons x t => rfl

theorem getLast?_wwwStrip (w : JSStr) (hne : ¬ wwwStrip w = []) :
    (wwwStrip w).getLast? = w.getLast? := by
  unfold wwwStrip at hne ⊢
  by_cases h : wwwDot.isPrefixOf w
  · rw [if_pos h] at hne ⊢
    match w, h with
    | [], h => exact absurd h (by decide)
    | [a], h => simp [wwwDot, List.isPrefixOf] at h
    | [a, b], h => simp [wwwDot, List.isPrefixOf] at h
    | [a, b, c], h => simp [wwwDot, List.isPrefixOf] at h
    | a :: b :: c :: d :: t, _ =>
      have ht : ¬ t = [] := by simpa [List.drop] using hne
      show t.getLast? = (a :: b :: c :: d :: t).getLast?
      have hsplit : a :: b :: c :: d :: t = [a, b, c, d] ++ t := rfl
      rw [hsplit, List.getLast?_append]
      cases ht2 : t.getLast? with
      | none => exact absurd (List.getLast?_eq_none_iff.mp ht2) ht
      | some x => rfl
  · rw [if_neg h] at hne ⊢

theorem getLast?_jsLower (u : JSStr) (h : ¬ u.getLast? = some '/') :
    ¬ (jsLower u).getLast? = some '/' := by
  intro e
  rw [jsLower, List.getLast?_map] at e
  cases hu : u.getLast? with
  | none => rw [hu] at e; exact Option.noConfusion e
  | some c =>
    rw [hu] at e
    have : Char.toLower c = '/' := Option.some.inj e
    exact h (by rw [hu, toLower_eq_slash c this])

theorem preProcess_concat_slash (u : JSStr) (h1 : jsTrim u = u) (h2 : ¬ u.getLast? = some '/') :
    preProcess (u ++ ['/']) = preProcess u ∧ preProcess u = wwwStrip (jsLower u) := by
  have hlow : jsLower (u ++ ['/']) = jsLower u ++ ['/'] := by
    simp [jsLower]
  have e1 : preProcess (u ++ ['/']) = wwwStrip (jsLower u) := by
    unfold preProcess
    rw [jsTrim_concat_slash u h1, hlow, wwwStrip_concat]
    unfold slashStrip
    rw [if_pos (List.getLast?_concat _), List.dropLast_concat]
  have e2 : preProcess u = wwwStrip (jsLower u) := by
    unfold preProcess
    rw [h1]
    unfold slashStrip
    by_cases hw : wwwStrip (jsLower u) = []
    · rw [hw]; simp
    · rw [if_neg ?c]
      case c =>
        rw [getLast?_wwwStrip _ hw]
        exact getLast?_jsLower u h2
  exact ⟨e1.trans e2.symm, e2⟩

/-- C2, counterexample.  All three clauses beyond letter case fail on the
code: `normalizeUrl` strips `www.` only as a literal string prefix, so two
otherwise-identical https URLs with and without the `www.` host label get
different keys; a trailing-slash difference survives when URL parsing fails
(the fallback returns the raw trimmed lowercase string); and removing a
tracking parameter can expose a trailing slash that the slash strip had
removed from the parameter-free variant. -/
theorem normalizeUrl_not_invariant :
    ¬ normalizeUrl "https://www.example.com".data = normalizeUrl "https://example.com".data ∧
    ¬ normalizeUrl ("example.com".data ++ ['/']) = normalizeUrl "example.com".data ∧
    ¬ normalizeUrl "https://a.com/p/?utm_source=x".data = normalizeUrl "https://a.com/p/".data := by
  refine ⟨by decide, by decide, by decide⟩

/-- C2, amended.  Two URL strings equal after lowercasing always receive the
same deduplication key; and appending one trailing slash to a trimmed URL
string that does not already end in a slash leaves the key unchanged
whenever the preprocessed string parses as a URL.  The `www.` and
tracking-parameter clauses of the original claim do not hold in general
(see the counterexample). -/
theorem normalizeUrl_invariance_amended :
    (∀ u1 u2 : JSStr, jsLower u1 = jsLower u2 → normalizeUrl u1 = normalizeUrl u2) ∧
    (∀ u : JSStr, jsTrim u = u → ¬ u.getLast? = some '/' →
      (parseURL (preProcess u)).isSome = true →
      normalizeUrl (u ++ ['/']) = normalizeUrl u) := by
  constructor
  · intro u1 u2 h
    have key : jsLower (jsTrim u1) = jsLower (jsTrim u2) := by
      rw [← jsTrim_jsLower, ← jsTrim_jsLower, h]
    rw [normalizeUrl_eq_normCore, normalizeUrl_eq_normCore, key]
  · intro u h1 h2 h3
    obtain ⟨epre, _⟩ := preProcess_concat_slash u h1 h2
    obtain ⟨parts, hp⟩ := Option.isSome_iff_exists.mp h3
    unfold normalizeUrl
    rw [epre, hp]

/-- C2, witness for the amended theorem. -/
theorem normalizeUrl_invariance_amended_witness :
    normalizeUrl "HTTPS://Example.com/Path".data = normalizeUrl "https://example.com/path".data ∧
    normalizeUrl ("https://a.com/p".data ++ ['/']) = normalizeUrl "https://a.com/p".data :=
  ⟨normalizeUrl_invariance_amended.1 _ _ (by decide),
   normalizeUrl_invariance_amended.2 "https://a.com/p".data (by decide) (by decide) (by decide)⟩

theorem resLe_iff (a b : WRes) :
    resLe a b = true ↔ (score a < score b ∨ (score a = score b ∧ b.weight ≤ a.weight)) := by
  simp [resLe]

theorem resLe_trans (a b c : WRes) (h1 : resLe a b = true) (h2 : resLe b c = true) :
    resLe a c = true := by
  rw [resLe_iff] at h1 h2 ⊢
  rcases h1 with h1 | ⟨h1e, h1w⟩
  · rcases h2 with h2 | ⟨h2e, _⟩
    · exact Or.inl (lt_trans h1 h2)
    · exact Or.inl (h2e ▸ h1)
  · rcases h2 with h2 | ⟨h2e, h2w⟩
    · exact Or.inl (h1e ▸ h2)
    · exact Or.inr ⟨h1e.trans h2e, le_trans h2w h1w⟩

theorem resLe_total (a b : WRes) (h : resLe a b = false) : resLe b a = true := by
  rw [resLe_iff]
  have h1 : ¬ (score a < score b ∨ (score a = score b ∧ b.weight ≤ a.weight)) := by
    rw [← resLe_iff, h]; simp
  push_neg at h1
  rcases lt_trichotomy (score b) (score a) with hlt | heq | hgt
  · exact Or.inl hlt
  · exact Or.inr ⟨heq, le_of_lt (h1.2 heq.symm)⟩
  · exact absurd hgt (not_lt.mpr h1.1)

theorem perm_insertSorted (le : α → α → Bool) (x : α) (l : List α) :
    List.Perm (insertSorted le x l) (x :: l) := by
  induction l with
  | nil => rfl
  | cons y ys ih =>
    unfold insertSorted
    by_cases h : le x y = true
    · rw [if_pos h]
    · rw [if_neg h]
      exact (List.Perm.cons y ih).trans (List.Perm.swap x y ys)

theorem perm_sortByLe (le : α → α → Bool) (l : List α) :
    List.Perm (sortByLe le l) l := by
  induction l with
  | nil => rfl
  | cons x xs ih =>
    show List.Perm (insertSorted le x (sortByLe le xs)) _
    exact (perm_insertSorted le x _).trans (List.Perm.cons x ih)

theorem mem_insertSorted (le : α → α → Bool) (x a : α) (l : List α) :
    a ∈ insertSorted le x l ↔ a = x ∨ a ∈ l := by
  rw [(perm_insertSorted le x l).mem_iff, List.mem_cons]

theorem pairwise_insertSorted (le : α → α → Bool)
    (htrans : ∀ a b c, le a b = true → le b c = true → le a c = true)
    (htot : ∀ a b, le a b = false → le b a = true)
    (x : α) (l : List α) (hl : l.Pairwise (fun a b => le a b = true)) :
    (insertSorted le x l).Pairwise (fun a b => le a b = true) := by
  induction l with
  | nil => simp [insertSorted]
  | cons y ys ih =>
    rcases List.pairwise_cons.mp hl with ⟨hy, hys⟩
    unfold insertSorted
    by_cases h : le x y = true
    · rw [if_pos h]
      refine List.pairwise_cons.mpr ⟨?_, hl⟩
      intro z hz
      rcases List.mem_cons.mp hz with rfl | hz
      · exact h
      · exact htrans x y z h (hy z hz)
    · rw [if_neg h]
      refine List.pairwise_cons.mpr ⟨?_, ih hys⟩
      intro z hz
      rcases (mem_insertSorted le x z ys).mp hz with hzx | hz
      · rw [hzx]; exact htot x y (by simpa using h)
      · exact hy z hz

theorem pairwise_sortByLe (le : α → α → Bool)
    (htrans : ∀ a b c, le a b = true → le b c = true → le a c = true)
    (htot : ∀ a b, le a b = false → le b a = true) (l : List α) :
    (sortByLe le l).Pairwise (fun a b => le a b = true) := by
  induction l with
  | nil => simp [sortByLe]
  | cons x xs ih => exact pairwise_insertSorted le htrans htot x _ ih

theorem lookupA_setA_self (k : JSStr) (v : α) (m : List (JSStr × α)) :
    lookupA k (setA k v m) = some v := by
  induction m with
  | nil => simp [setA, lookupA]
  | cons p t ih =>
    obtain ⟨k1, v1⟩ := p
    unfold setA
    by_cases h : k = k1
    · rw [if_pos h]; simp [lookupA]
    · rw [if_neg h]; simpa [lookupA, h] using ih

theorem lookupA_setA_ne (k k1 : JSStr) (v : α) (m : List (JSStr × α)) (h : ¬ k = k1) :
    lookupA k (setA k1 v m) = lookupA k m := by
  induction m with
  | nil => simp [setA, lookupA, h]
  | cons p t ih =>
    obtain ⟨k2, v2⟩ := p
    unfold setA
    by_cases h2 : k1 = k2
    · rw [if_pos h2]
      subst h2
      simp [lookupA, h]
    · rw [if_neg h2]
      by_cases h3 : k = k2
      · simp [lookupA, h3]
      · simp [lookupA, h3, ih]

theorem lookupA_eq_none_iff (k : JSStr) (m : List (JSStr × α)) :
    lookupA k m = none ↔ ∀ p ∈ m, ¬ k = p.1 := by
  induction m with
  | nil => simp [lookupA]
  | cons p t ih =>
    obtain ⟨k1, v1⟩ := p
    unfold lookupA
    by_cases h : k = k1
    · subst h
      rw [if_pos rfl]
      constructor
      · intro e; exact absurd e (by simp)
      · intro hall; exact absurd rfl (hall (k, v1) (List.mem_cons_self _ _))
    · rw [if_neg h, ih]
      constructor
      · intro hall p hp
        rcases List.mem_cons.mp hp with rfl | hp2
        · exact h
        · exact hall p hp2
      · intro hall p hp
        exact hall p (List.mem_cons_of_mem _ hp)

theorem setA_eq_append (k : JSStr) (v : α) (m : List (JSStr × α))
    (h : ∀ p ∈ m, ¬ k = p.1) : setA k v m = m ++ [(k, v)] := by
  induction m with
  | nil => rfl
  | cons p t ih =>
    obtain ⟨k1, v1⟩ := p
    have h1 : ¬ k = k1 := h (k1, v1) (List.mem_cons_self _ _)
    unfold setA
    rw [if_neg h1, ih (fun q hq => h q (List.mem_cons_of_mem _ hq))]
    rfl

theorem mem_setA (k : JSStr) (v : α) (m : List (JSStr × α)) (p : JSStr × α)
    (hp : p ∈ setA k v m) : p = (k, v) ∨ p ∈ m := by
  induction m with
  | nil => simpa [setA] using hp
  | cons q t ih =>
    obtain ⟨k1, v1⟩ := q
    unfold setA at hp
    by_cases h : k = k1
    · rw [if_pos h] at hp
      rcases List.mem_cons.mp hp with rfl | hp
      · exact Or.inl rfl
      · exact Or.inr (List.mem_cons_of_mem _ hp)
    · rw [if_neg h] at hp
      rcases List.mem_cons.mp hp with rfl | hp
      · exact Or.inr (List.mem_cons_self _ _)
      · rcases ih hp with h1 | h1
        · exact Or.inl h1
        · exact Or.inr (List.mem_cons_of_mem _ h1)

theorem map_fst_setA_of_mem (k : JSStr) (v : α) (m : List (JSStr × α))
    (h : ¬ lookupA k m = none) : (setA k v m).map Prod.fst = m.map Prod.fst := by
  induction m with
  | nil => exact absurd rfl h
  | cons q t ih =>
    obtain ⟨k1, v1⟩ := q
    unfold setA
    by_cases hk : k = k1
    · rw [if_pos hk]; simp [hk]
    · rw [if_neg hk]
      unfold lookupA at h
      rw [if_neg hk] at h
      simp [ih h]

theorem lookupA_mem (k : JSStr) (v : α) (m : List (JSStr × α))
    (h : lookupA k m = some v) : (k, v) ∈ m := by
  induction m with
  | nil => simp [lookupA] at h
  | cons q t ih =>
    obtain ⟨k1, v1⟩ := q
    unfold lookupA at h
    by_cases hk : k = k1
    · rw [if_pos hk] at h
      have : v1 = v := Option.some.inj h
      subst hk this
      exact List.mem_cons_self _ _
    · rw [if_neg hk] at h
      exact List.mem_cons_of_mem _ (ih h)

theorem mem_lookupA (k : JSStr) (v : α) (m : List (JSStr × α))
    (hmem : (k, v) ∈ m) (hnd : (m.map Prod.fst).Nodup) : lookupA k m = some v := by
  induction m with
  | nil => simp at hmem
  | cons q t ih =>
    obtain ⟨k1, v1⟩ := q
    rcases List.mem_cons.mp hmem with heq | hmem2
    · obtain ⟨e1, e2⟩ := Prod.mk.injEq .. ▸ heq
      subst e1
      simp [lookupA, e2]
    · have hk : ¬ k = k1 := by
        intro e
        subst e
        have : k ∈ t.map Prod.fst := List.mem_map_of_mem Prod.fst hmem2
        simp only [List.map_cons, List.nodup_cons] at hnd
        exact hnd.1 this
      unfold lookupA
      rw [if_neg hk]
      simp only [List.map_cons, List.nodup_cons] at hnd
      exact ih hmem2 hnd.2

theorem mergeInto_url (e r : WRes) : (mergeInto e r).url = e.url := by
  unfold mergeInto
  by_cases h1 : e.weight < r.weight
  · simp [h1]
  · by_cases h2 : r.weight = e.weight ∧ r.rank < e.rank
    · simp [h1, h2]
    · simp [h1, h2]

theorem mergeInto_of_lt (e r : WRes) (h : e.weight < r.weight) :
    mergeInto e r =
      { title := r.title, url := e.url, snippet := r.snippet, weight := r.weight,
        sources := dedupFirst [] (e.sources ++ r.sources), rank := r.rank } := by
  unfold mergeInto
  simp [h]

theorem mergeInto_of_eq (e r : WRes) (h : r.weight = e.weight) :
    mergeInto e r =
      { e with sources := dedupFirst [] (e.sources ++ r.sources),
               rank := if r.rank < e.rank then r.rank else e.rank } := by
  unfold mergeInto
  rw [if_neg (by simp [h])]
  by_cases h2 : r.rank < e.rank
  · rw [if_pos ⟨h, h2⟩, if_pos h2]
  · rw [if_neg (by intro hc; exact h2 hc.2), if_neg h2]

theorem mergeInto_of_gt (e r : WRes) (h : r.weight < e.weight) :
    mergeInto e r = { e with sources := dedupFirst [] (e.sources ++ r.sources) } := by
  unfold mergeInto
  rw [if_neg (not_lt.mpr (le_of_lt h)), if_neg ?hc]
  case hc =>
    intro hc
    rw [hc.1] at h
    exact lt_irrefl _ h

theorem dedupStep_none (m : List (JSStr × WRes)) (r : WRes)
    (hl : lookupA (normalizeUrl r.url) m = none) :
    dedupStep m r = setA (normalizeUrl r.url) r m := by
  unfold dedupStep
  rw [hl]

theorem dedupStep_some (m : List (JSStr × WRes)) (r e : WRes)
    (hl : lookupA (normalizeUrl r.url) m = some e) :
    dedupStep m r = setA (normalizeUrl r.url) (mergeInto e r) m := by
  unfold dedupStep
  rw [hl]

/-- The invariant of the deduplication map: every entry is keyed by the
normalization of its value's URL, and the keys are pairwise distinct. -/
def GoodMap (m : List (JSStr × WRes)) : Prop :=
  (∀ p ∈ m, p.1 = normalizeUrl p.2.url) ∧ (m.map Prod.fst).Nodup

theorem goodMap_dedupStep (m : List (JSStr × WRes)) (r : WRes) (hm : GoodMap m) :
    GoodMap (dedupStep m r) := by
  obtain ⟨hkey, hnd⟩ := hm
  cases hl : lookupA (normalizeUrl r.url) m with
  | none =>
    have hnone : ∀ p ∈ m, ¬ normalizeUrl r.url = p.1 := (lookupA_eq_none_iff _ m).mp hl
    rw [dedupStep_none m r hl, setA_eq_append _ _ _ hnone]
    constructor
    · intro p hp
      rcases List.mem_append.mp hp with hp1 | hp2
      · exact hkey p hp1
      · rcases List.mem_singleton.mp hp2 with rfl
        rfl
    · rw [List.map_append, List.nodup_append]
      refine ⟨hnd, List.nodup_singleton _, ?_⟩
      intro a ha hb
      rcases List.mem_map.mp ha with ⟨p, hp, rfl⟩
      have hpk : p.1 = normalizeUrl r.url := by simpa using hb
      exact hnone p hp hpk.symm
  | some e =>
    rw [dedupStep_some m r e hl]
    constructor
    · intro p hp
      rcases mem_setA _ _ _ _ hp with rfl | hp2
      · show normalizeUrl r.url = normalizeUrl (mergeInto e r).url
        rw [mergeInto_url]
        exact hkey (normalizeUrl r.url, e) (lookupA_mem _ _ _ hl)
      · exact hkey p hp2
    · rw [map_fst_setA_of_mem _ _ _ (by rw [hl]; simp)]
      exact hnd

theorem goodMap_foldl (rs : List WRes) (m : List (JSStr × WRes)) (hm : GoodMap m) :
    GoodMap (rs.foldl dedupStep m) := by
  induction rs generalizing m with
  | nil => exact hm
  | cons r rest ih => exact ih (dedupStep m r) (goodMap_dedupStep m r hm)

theorem goodMap_dedupFold (rs : List WRes) : GoodMap (dedupFold rs) :=
  goodMap_foldl rs [] ⟨by simp, by simp⟩

/-- The collision group of a key inside a result list. -/
def groupOf (k : JSStr) (rs : List WRes) : List WRes :=
  rs.filter (fun x => decide (normalizeUrl x.url = k))

theorem lookupA_foldl_dedupStep (rs : List WRes) (m : List (JSStr × WRes)) (k : JSStr) :
    lookupA k (rs.foldl dedupStep m) =
      match lookupA k m with
      | some e => some (mergeRun e (groupOf k rs))
      | none =>
        match groupOf k rs with
        | [] => none
        | x :: xs => some (mergeRun x xs) := by
  induction rs generalizing m with
  | nil =>
    cases hl : lookupA k m with
    | none =>
      show lookupA k m = _
      rw [hl]
      rfl
    | some e =>
      show lookupA k m = _
      rw [hl]
      rfl
  | cons r rest ih =>
    show lookupA k (rest.foldl dedupStep (dedupStep m r)) = _
    by_cases hk : normalizeUrl r.url = k
    · subst hk
      have hg : groupOf (normalizeUrl r.url) (r :: rest) =
          r :: groupOf (normalizeUrl r.url) rest := by
        unfold groupOf
        rw [List.filter_cons_of_pos (by simp)]
      cases hl : lookupA (normalizeUrl r.url) m with
      | none =>
        rw [ih (dedupStep m r), dedupStep_none m r hl, lookupA_setA_self, hg]
      | some e =>
        rw [ih (dedupStep m r), dedupStep_some m r e hl, lookupA_setA_self, hg]
        rfl
    · have hg : groupOf k (r :: rest) = groupOf k rest := by
        unfold groupOf
        rw [List.filter_cons_of_neg (by simp [hk])]
      have e2 : lookupA k (dedupStep m r) = lookupA k m := by
        cases hl2 : lookupA (normalizeUrl r.url) m with
        | none =>
          rw [dedupStep_none m r hl2]
          exact lookupA_setA_ne k _ _ m (fun e => hk e.symm)
        | some e =>
          rw [dedupStep_some m r e hl2]
          exact lookupA_setA_ne k _ _ m (fun e => hk e.symm)
      rw [ih (dedupStep m r), e2, hg]

theorem lookupA_dedupFold (rs : List WRes) (k : JSStr) :
    lookupA k (dedupFold rs) =
      match groupOf k rs with
      | [] => none
      | x :: xs => some (mergeRun x xs) := by
  have h := lookupA_foldl_dedupStep rs [] k
  have h0 : lookupA k ([] : List (JSStr × WRes)) = none := rfl
  rw [h0] at h
  exact h

/-- Running maximum of weights, seeded by `w`. -/
def maxWeightFrom (w : ℚ) (l : List WRes) : ℚ :=
  l.foldl (fun m r => max m r.weight) w

theorem maxWeightFrom_cons (w : ℚ) (r : WRes) (l : List WRes) :
    maxWeightFrom w (r :: l) = maxWeightFrom (max w r.weight) l := rfl

theorem maxWeightOf_cons (x : WRes) (xs : List WRes) :
    maxWeightOf (x :: xs) = maxWeightFrom x.weight xs := rfl

theorem le_maxWeightFrom (w : ℚ) (l : List WRes) : w ≤ maxWeightFrom w l := by
  induction l generalizing w with
  | nil => exact le_refl w
  | cons r t ih => exact le_trans (le_max_left w r.weight) (ih (max w r.weight))

theorem mem_le_maxWeightFrom (w : ℚ) (l : List WRes) (x : WRes) (hx : x ∈ l) :
    x.weight ≤ maxWeightFrom w l := by
  induction l generalizing w with
  | nil => simp at hx
  | cons r t ih =>
    rcases List.mem_cons.mp hx with rfl | hx2
    · exact le_trans (le_max_right w x.weight) (le_maxWeightFrom _ t)
    · exact ih (max w r.weight) hx2

theorem mergeInto_weight (e r : WRes) : (mergeInto e r).weight = max e.weight r.weight := by
  rcases lt_trichotomy e.weight r.weight with h | h | h
  · rw [mergeInto_of_lt e r h]
    exact (max_eq_right (le_of_lt h)).symm
  · rw [mergeInto_of_eq e r h.symm]
    show e.weight = _
    rw [← h, max_self]
  · rw [mergeInto_of_gt e r h]
    show e.weight = _
    exact (max_eq_left (le_of_lt h)).symm

theorem mergeInto_title (e r : WRes) :
    (mergeInto e r).title = if e.weight < r.weight then r.title else e.title := by
  rcases lt_trichotomy e.weight r.weight with h | h | h
  · rw [mergeInto_of_lt e r h, if_pos h]
  · rw [mergeInto_of_eq e r h.symm]
    show e.title = _
    rw [if_neg (by rw [h]; exact lt_irrefl _)]
  · rw [mergeInto_of_gt e r h, if_neg (not_lt.mpr (le_of_lt h))]

theorem mergeInto_snippet (e r : WRes) :
    (mergeInto e r).snippet = if e.weight < r.weight then r.snippet else e.snippet := by
  rcases lt_trichotomy e.weight r.weight with h | h | h
  · rw [mergeInto_of_lt e r h, if_pos h]
  · rw [mergeInto_of_eq e r h.symm]
    show e.snippet = _
    rw [if_neg (by rw [h]; exact lt_irrefl _)]
  · rw [mergeInto_of_gt e r h, if_neg (not_lt.mpr (le_of_lt h))]

theorem mergeRun_spec (xs : List WRes) (c : WRes) :
    (mergeRun c xs).url = c.url ∧
    (mergeRun c xs).weight = maxWeightFrom c.weight xs ∧
    ((c.weight = maxWeightFrom c.weight xs ∧
      (mergeRun c xs).title = c.title ∧ (mergeRun c xs).snippet = c.snippet) ∨
     (c.weight < maxWeightFrom c.weight xs ∧
      ∃ i, ∃ hi : i < xs.length,
        (xs.get ⟨i, hi⟩).weight = maxWeightFrom c.weight xs ∧
        (mergeRun c xs).title = (xs.get ⟨i, hi⟩).title ∧
        (mergeRun c xs).snippet = (xs.get ⟨i, hi⟩).snippet ∧
        ∀ j, ∀ hj : j < xs.length, j < i →
          (xs.get ⟨j, hj⟩).weight < maxWeightFrom c.weight xs)) := by
  induction xs generalizing c with
  | nil => exact ⟨rfl, rfl, Or.inl ⟨rfl, rfl, rfl⟩⟩
  | cons r rest ih =>
    have hstep : mergeRun c (r :: rest) = mergeRun (mergeInto c r) rest := rfl
    have hM : maxWeightFrom (mergeInto c r).weight rest = maxWeightFrom c.weight (r :: rest) := by
      rw [mergeInto_weight, maxWeightFrom_cons]
    obtain ⟨ihu, ihw, ihd⟩ := ih (mergeInto c r)
    refine ⟨by rw [hstep, ihu, mergeInto_url], by rw [hstep, ihw, hM], ?_⟩
    by_cases hlt : c.weight < r.weight
    · have hw2 : (mergeInto c r).weight = r.weight := by
        rw [mergeInto_weight]
        exact max_eq_right (le_of_lt hlt)
      have ht2 : (mergeInto c r).title = r.title := by rw [mergeInto_title, if_pos hlt]
      have hs2 : (mergeInto c r).snippet = r.snippet := by rw [mergeInto_snippet, if_pos hlt]
      rcases ihd with ⟨hA, hAt, hAs⟩ | ⟨hB, i, hi, hwi, hBt, hBs, hBbef⟩
      · refine Or.inr ⟨?_, 0, by simp, ?_, ?_, ?_, ?_⟩
        · rw [← hM]
          calc c.weight < r.weight := hlt
            _ = (mergeInto c r).weight := hw2.symm
            _ = maxWeightFrom (mergeInto c r).weight rest := hA
        · show r.weight = _
          rw [← hM, ← hA, hw2]
        · show (mergeRun c (r :: rest)).title = r.title
          rw [hstep, hAt, ht2]
        · show (mergeRun c (r :: rest)).snippet = r.snippet
          rw [hstep, hAs, hs2]
        · intro j hj hj0
          exact absurd hj0 (Nat.not_lt_zero j)
      · refine Or.inr ⟨?_, i + 1, Nat.succ_lt_succ hi, ?_, ?_, ?_, ?_⟩
        · rw [← hM]
          calc c.weight < r.weight := hlt
            _ = (mergeInto c r).weight := hw2.symm
            _ < maxWeightFrom (mergeInto c r).weight rest := hB
        · show (rest.get ⟨i, hi⟩).weight = _
          rw [← hM, hwi]
        · show (mergeRun c (r :: rest)).title = (rest.get ⟨i, hi⟩).title
          rw [hstep, hBt]
        · show (mergeRun c (r :: rest)).snippet = (rest.get ⟨i, hi⟩).snippet
          rw [hstep, hBs]
        · intro j hj hjlt
          cases j with
          | zero =>
            show r.weight < _
            rw [← hM, ← hw2]
            exact hB
          | succ j1 =>
            have hj1 : j1 < rest.length := Nat.lt_of_succ_lt_succ hj
            show (rest.get ⟨j1, hj1⟩).weight < _
            rw [← hM]
            exact hBbef j1 hj1 (Nat.lt_of_succ_lt_succ hjlt)
    · have hw2 : (mergeInto c r).weight = c.weight := by
        rw [mergeInto_weight]
        exact max_eq_left (not_lt.mp hlt)
      have ht2 : (mergeInto c r).title = c.title := by rw [mergeInto_title, if_neg hlt]
      have hs2 : (mergeInto c r).snippet = c.snippet := by rw [mergeInto_snippet, if_neg hlt]
      rcases ihd with ⟨hA, hAt, hAs⟩ | ⟨hB, i, hi, hwi, hBt, hBs, hBbef⟩
      · refine Or.inl ⟨?_, ?_, ?_⟩
        · rw [← hM, ← hA, hw2]
        · rw [hstep, hAt, ht2]
        · rw [hstep, hAs, hs2]
      · refine Or.inr ⟨?_, i + 1, Nat.succ_lt_succ hi, ?_, ?_, ?_, ?_⟩
        · rw [← hM, ← hw2]
          exact hB
        · show (rest.get ⟨i, hi⟩).weight = _
          rw [← hM, hwi]
        · show (mergeRun c (r :: rest)).title = (rest.get ⟨i, hi⟩).title
          rw [hstep, hBt]
        · show (mergeRun c (r :: rest)).snippet = (rest.get ⟨i, hi⟩).snippet
          rw [hstep, hBs]
        · intro j hj hjlt
          cases j with
          | zero =>
            show r.weight < _
            rw [← hM]
            calc r.weight ≤ c.weight := not_lt.mp hlt
              _ = (mergeInto c r).weight := hw2.symm
              _ < maxWeightFrom (mergeInto c r).weight rest := hB
          | succ j1 =>
            have hj1 : j1 < rest.length := Nat.lt_of_succ_lt_succ hj
            show (rest.get ⟨j1, hj1⟩).weight < _
            rw [← hM]
            exact hBbef j1 hj1 (Nat.lt_of_succ_lt_succ hjlt)

theorem find?_eq_get (p : α → Bool) (l : List α) (i : Nat) (hi : i < l.length)
    (hb : ∀ j, ∀ hj : j < l.length, j < i → p (l.get ⟨j, hj⟩) = false)
    (hat : p (l.get ⟨i, hi⟩) = true) :
    l.find? p = some (l.get ⟨i, hi⟩) := by
  induction l generalizing i with
  | nil => simp at hi
  | cons a t ih =>
    cases i with
    | zero => exact List.find?_cons_of_pos t hat
    | succ n =>
      have ha : p a = false := hb 0 (Nat.succ_pos t.length) (Nat.succ_pos n)
      rw [List.find?_cons_of_neg t (by simp [ha])]
      exact ih n (Nat.lt_of_succ_lt_succ hi)
        (fun j hj hji => hb (j + 1) (Nat.succ_lt_succ hj) (Nat.succ_lt_succ hji)) hat

/-- C3, amended.  Every entry of `deduplicateResults` carries the title and
snippet of the first member, in accumulation order, of its collision group
that attains the group's maximal weight.  The original claim's tie-break
(`lowest rank` among the heaviest members) does not match the code: on a
weight tie only the rank is updated, while title and snippet stay with the
first-seen member (see the counterexample). -/
theorem dedup_title_from_first_max (rs : List WRes) (r : WRes)
    (hr : r ∈ deduplicateResults rs) :
    ∃ m, firstMaxOf (groupOf (normalizeUrl r.url) rs) = some m ∧
      r.title = m.title ∧ r.snippet = m.snippet := by
  have hperm := perm_sortByLe resLe ((dedupFold rs).map (fun p => p.2))
  have hr2 : r ∈ (dedupFold rs).map (fun p => p.2) := hperm.mem_iff.mp hr
  obtain ⟨p, hp, hpr⟩ := List.mem_map.mp hr2
  obtain ⟨hkey, hnd⟩ := goodMap_dedupFold rs
  have hk : p.1 = normalizeUrl r.url := by rw [hkey p hp, hpr]
  have hlk : lookupA (normalizeUrl r.url) (dedupFold rs) = some r := by
    rw [← hk, ← hpr]
    exact mem_lookupA p.1 p.2 _ hp hnd
  rw [lookupA_dedupFold] at hlk
  cases hg : groupOf (normalizeUrl r.url) rs with
  | nil =>
    rw [hg] at hlk
    exact Option.noConfusion hlk
  | cons x xs =>
    rw [hg] at hlk
    have hxr : mergeRun x xs = r := Option.some.inj hlk
    obtain ⟨_, _, hd⟩ := mergeRun_spec xs x
    rcases hd with ⟨hA, hAt, hAs⟩ | ⟨hB, i, hi, hwi, hBt, hBs, hBbef⟩
    · refine ⟨x, ?_, ?_, ?_⟩
      · unfold firstMaxOf
        rw [maxWeightOf_cons]
        exact List.find?_cons_of_pos xs (by simp only [decide_eq_true_eq]; exact le_of_eq hA.symm)
      · rw [← hxr, hAt]
      · rw [← hxr, hAs]
    · refine ⟨xs.get ⟨i, hi⟩, ?_, ?_, ?_⟩
      · unfold firstMaxOf
        rw [maxWeightOf_cons]
        rw [List.find?_cons_of_neg xs
          (by simp only [decide_eq_true_eq]; exact not_le.mpr hB)]
        exact find?_eq_get _ xs i hi
          (fun j hj hji => by
            simp only [decide_eq_false_iff_not]
            exact not_le.mpr (hBbef j hj hji))
          (by simp only [decide_eq_true_eq]; exact le_of_eq hwi.symm)
      · rw [← hxr, hBt]
      · rw [← hxr, hBs]

/-- Two accumulated results for the same URL with equal weight 1: the
earlier one has rank 5 and title `T1`, the later one rank 2 and title
`T2`. -/
def exGroupTie : List WRes :=
  [⟨"T1".data, "https://a.com/x".data, some "S1".data, 1, ["da".data], 5⟩,
   ⟨"T2".data, "https://a.com/x".data, some "S2".data, 1, ["db".data], 2⟩]

/-- C3, counterexample.  On the tie group above the merged entry keeps the
first member's title `T1` (and snippet `S1`) while taking the rank 2, yet
the member with the lowest rank among the (all maximal-weight) members is
the one titled `T2`: the claimed tie-break on lowest rank does not hold. -/
theorem dedup_title_tie_counterexample :
    deduplicateResults exGroupTie =
      [⟨"T1".data, "https://a.com/x".data, some "S1".data, 1, ["da".data, "db".data], 2⟩] ∧
    exGroupTie.filter (fun m => decide (m.weight = maxWeightOf exGroupTie) &&
        decide (m.rank = 2)) =
      [⟨"T2".data, "https://a.com/x".data, some "S2".data, 1, ["db".data], 2⟩] ∧
    ¬ ("T1".data : JSStr) = "T2".data :=
  ⟨by decide, by decide, by decide⟩

/-- C3, witness for the amended theorem at the tie group. -/
theorem dedup_title_from_first_max_witness :
    ∃ r, r ∈ deduplicateResults exGroupTie ∧
    ∃ m, firstMaxOf (groupOf (normalizeUrl r.url) exGroupTie) = some m ∧
      r.title = m.title ∧ r.snippet = m.snippet := by
  refine ⟨⟨"T1".data, "https://a.com/x".data, some "S1".data, 1,
    ["da".data, "db".data], 2⟩, by decide, ?_⟩
  exact dedup_title_from_first_max exGroupTie _ (by decide)

theorem searchLoop_shape (drivers : List HDriver) (perPage targetCount : Nat)
    (fuel pg : Nat) (st : LoopState)
    (hst : st.allResults = [] ∨ ∃ xs, st.allResults = deduplicateResults xs) :
    (searchLoop drivers perPage targetCount fuel pg st).allResults = [] ∨
    ∃ xs, (searchLoop drivers perPage targetCount fuel pg st).allResults =
      deduplicateResults xs := by
  induction fuel generalizing pg st with
  | zero => exact hst
  | succ fuel ih =>
    rw [searchLoop]
    by_cases h1 : st.allResults.length < targetCount
    · rw [if_pos h1]
      by_cases h2 : targetCount ≤ (stepRound drivers perPage pg st).allResults.length
      · rw [if_pos h2]
        exact Or.inr ⟨_, rfl⟩
      · rw [if_neg h2]
        exact ih (pg + 1) _ (Or.inr ⟨_, rfl⟩)
    · rw [if_neg h1]
      exact hst

theorem searchLoop_rounds_le (drivers : List HDriver) (perPage targetCount : Nat)
    (fuel pg : Nat) (st : LoopState) :
    (searchLoop drivers perPage targetCount fuel pg st).rounds ≤ st.rounds + fuel := by
  induction fuel generalizing pg st with
  | zero => exact Nat.le_refl _
  | succ fuel ih =>
    rw [searchLoop]
    by_cases h1 : st.allResults.length < targetCount
    · rw [if_pos h1]
      by_cases h2 : targetCount ≤ (stepRound drivers perPage pg st).allResults.length
      · rw [if_pos h2]
        show st.rounds + 1 ≤ st.rounds + (fuel + 1)
        omega
      · rw [if_neg h2]
        have h3 := ih (pg + 1) (stepRound drivers perPage pg st)
        have h4 : (stepRound drivers perPage pg st).rounds = st.rounds + 1 := rfl
        omega
    · rw [if_neg h1]
      omega

theorem searchLoop_stop (drivers : List HDriver) (perPage targetCount : Nat)
    (fuel pg : Nat) (st : LoopState) (h : targetCount ≤ st.allResults.length) :
    searchLoop drivers perPage targetCount fuel pg st = st := by
  cases fuel with
  | zero => rfl
  | succ fuel =>
    rw [searchLoop, if_neg (not_lt.mpr h)]

theorem hybridSearch_results_eq (drivers : List HDriver) (query : JSStr) (page perPage : Nat)
    (hq : ¬ jsTrim query = []) :
    (hybridSearch drivers query page perPage).results =
      ((searchLoop drivers perPage (page * perPage) 5 1 ⟨[], [], 0⟩).allResults.drop
        ((page - 1) * perPage)).take perPage := by
  unfold hybridSearch
  rw [if_neg hq]

theorem hybridSearch_total_eq (drivers : List HDriver) (query : JSStr) (page perPage : Nat)
    (hq : ¬ jsTrim query = []) :
    (hybridSearch drivers query page perPage).totalResults =
      some (if 0 < sumTotals (searchLoop drivers perPage (page * perPage) 5 1 ⟨[], [], 0⟩).totals
        then sumTotals (searchLoop drivers perPage (page * perPage) 5 1 ⟨[], [], 0⟩).totals
        else ((searchLoop drivers perPage (page * perPage) 5 1 ⟨[], [], 0⟩).allResults.length : Int)) := by
  unfold hybridSearch
  rw [if_neg hq]

theorem dedup_pairwise_resLe (rs : List WRes) :
    (deduplicateResults rs).Pairwise (fun a b => resLe a b = true) :=
  pairwise_sortByLe resLe resLe_trans resLe_total _

theorem dedup_pairwise_keys (rs : List WRes) :
    (deduplicateResults rs).Pairwise
      (fun a b => ¬ normalizeUrl a.url = normalizeUrl b.url) := by
  obtain ⟨hkey, hnd⟩ := goodMap_dedupFold rs
  have h1 : (dedupFold rs).Pairwise (fun p q => ¬ p.1 = q.1) := by
    rw [List.Nodup] at hnd
    exact List.pairwise_map.mp hnd
  have h2 : (dedupFold rs).Pairwise
      (fun p q => ¬ normalizeUrl p.2.url = normalizeUrl q.2.url) := by
    refine h1.imp_of_mem ?_
    intro a b ha hb hne he
    exact hne (by rw [hkey a ha, hkey b hb, he])
  have h3 : ((dedupFold rs).map (fun p => p.2)).Pairwise
      (fun a b => ¬ normalizeUrl a.url = normalizeUrl b.url) :=
    List.pairwise_map.mpr h2
  have hperm := perm_sortByLe resLe ((dedupFold rs).map (fun p => p.2))
  exact (hperm.pairwise_iff (fun h e => h e.symm)).mpr h3

theorem searchLoop_pairwise (drivers : List HDriver) (query : JSStr) (page perPage : Nat)
    (R : WRes → WRes → Prop)
    (hded : ∀ rs, (deduplicateResults rs).Pairwise R) :
    (hybridSearch drivers query page perPage).results.Pairwise R := by
  by_cases hq : jsTrim query = []
  · have he : (hybridSearch drivers query page perPage).results = [] := by
      unfold hybridSearch
      rw [if_pos hq]
    rw [he]
    exact List.Pairwise.nil
  · rw [hybridSearch_results_eq drivers query page perPage hq]
    have hsh := searchLoop_shape drivers perPage (page * perPage) 5 1 ⟨[], [], 0⟩ (Or.inl rfl)
    have hpw : (searchLoop drivers perPage (page * perPage) 5 1 ⟨[], [], 0⟩).allResults.Pairwise R := by
      rcases hsh with he | ⟨xs, he⟩
      · rw [he]; exact List.Pairwise.nil
      · rw [he]; exact hded xs
    exact (hpw.sublist (List.drop_sublist _ _)).sublist (List.take_sublist _ _)

/-- A driver that always fulfills with one result and total 100. -/
def exDrvA : HDriver :=
  ⟨"d1".data, 1, fun _ => Except.ok ([⟨"t1".data, "https://a.com/1".data, none⟩], some 100)⟩

/-- A half-weight driver that always fulfills with one result and total 40. -/
def exDrvB : HDriver :=
  ⟨"d2".data, (1 : ℚ) / 2, fun _ => Except.ok ([⟨"t2".data, "https://b.com/2".data, none⟩], some 40)⟩

/-- C4: in the result sequence returned by the hybrid driver's search, an
earlier entry never has a larger score (`rank/weight`) than a later one,
and two entries with equal score appear in order of non-increasing weight.
The returned page is a contiguous slice of the comparator-sorted
deduplicated accumulator, so the order law holds for every pair of
positions. -/
theorem hybrid_search_ordering (drivers : List HDriver) (query : JSStr) (page perPage : Nat)
    (i j : Nat) (hij : i < j)
    (hj : j < (hybridSearch drivers query page perPage).results.length) :
    score ((hybridSearch drivers query page perPage).results.get ⟨i, Nat.lt_trans hij hj⟩) ≤
      score ((hybridSearch drivers query page perPage).results.get ⟨j, hj⟩) ∧
    (score ((hybridSearch drivers query page perPage).results.get ⟨i, Nat.lt_trans hij hj⟩) =
        score ((hybridSearch drivers query page perPage).results.get ⟨j, hj⟩) →
      ((hybridSearch drivers query page perPage).results.get ⟨j, hj⟩).weight ≤
        ((hybridSearch drivers query page perPage).results.get ⟨i, Nat.lt_trans hij hj⟩).weight) := by
  have hpw := searchLoop_pairwise drivers query page perPage _ dedup_pairwise_resLe
  have hres := List.pairwise_iff_get.mp hpw ⟨i, Nat.lt_trans hij hj⟩ ⟨j, hj⟩ hij
  rw [resLe_iff] at hres
  rcases hres with hlt | ⟨heq, hw⟩
  · refine ⟨le_of_lt hlt, fun he => absurd hlt ?_⟩
    rw [he]
    exact lt_irrefl _
  · exact ⟨le_of_eq heq, fun _ => hw⟩

-- C4, witness.
unseal Rat.mul Rat.inv Rat.add Rat.sub in
theorem hybrid_search_ordering_witness :
    0 < 1 ∧ 1 < (hybridSearch [exDrvA, exDrvB] "q".data 1 10).results.length ∧
    score ((hybridSearch [exDrvA, exDrvB] "q".data 1 10).results.get ⟨0, by decide⟩) ≤
      score ((hybridSearch [exDrvA, exDrvB] "q".data 1 10).results.get ⟨1, by decide⟩) :=
  ⟨by decide, by decide,
   (hybrid_search_ordering [exDrvA, exDrvB] "q".data 1 10 0 1 (by decide) (by decide)).1⟩

/-- C5: no two entries of any result list returned by the hybrid driver's
search share a normalized URL key, for every driver configuration, every
behavior of the drivers across all rounds, and every request. -/
theorem hybrid_search_no_duplicate_keys (drivers : List HDriver) (query : JSStr)
    (page perPage : Nat) :
    (hybridSearch drivers query page perPage).results.Pairwise
      (fun a b => ¬ normalizeUrl a.url = normalizeUrl b.url) :=
  searchLoop_pairwise drivers query page perPage _ dedup_pairwise_keys

/-- C8: the page-round loop of the hybrid driver is a total function that
executes at most `maxPages = 5` rounds (each round querying every
configured driver exactly once), and it runs no further round as soon as
the deduplicated accumulated count has reached `targetCount =
page * perPage`. -/
theorem hybrid_search_round_bound (drivers : List HDriver) (page perPage : Nat) :
    (searchLoop drivers perPage (page * perPage) 5 1 ⟨[], [], 0⟩).rounds ≤ 5 ∧
    (∀ targetCount fuel pg : Nat, ∀ st : LoopState,
      targetCount ≤ st.allResults.length →
      searchLoop drivers perPage targetCount fuel pg st = st) := by
  constructor
  · have h := searchLoop_rounds_le drivers perPage (page * perPage) 5 1 ⟨[], [], 0⟩
    simpa using h
  · intro tc fuel pg st h
    exact searchLoop_stop drivers perPage tc fuel pg st h

-- C8, witness.
unseal Rat.mul Rat.inv Rat.add Rat.sub in
theorem hybrid_search_round_bound_witness :
    (searchLoop [exDrvA, exDrvB] 10 (1 * 10) 5 1 ⟨[], [], 0⟩).rounds ≤ 5 ∧
    searchLoop [exDrvA, exDrvB] 10 0 5 1 ⟨[], [], 0⟩ = ⟨[], [], 0⟩ :=
  ⟨(hybrid_search_round_bound [exDrvA, exDrvB] 1 10).1,
   (hybrid_search_round_bound [exDrvA, exDrvB] 1 10).2 0 5 1 ⟨[], [], 0⟩ (by decide)⟩

/-- Replace every failed call of a driver by a fulfilled call with zero
results and no total. -/
def sanitizeDriver (d : HDriver) : HDriver :=
  { d with call := fun p =>
      match d.call p with
      | Except.error _ => Except.ok ([], none)
      | Except.ok x => Except.ok x }

theorem sanitize_call (d : HDriver) (pg : Nat) :
    (sanitizeDriver d).call pg =
      match d.call pg with
      | Except.error _ => Except.ok ([], none)
      | Except.ok x => Except.ok x := rfl

theorem roundResults_sanitize (drivers : List HDriver) (perPage pg : Nat) :
    roundResults (drivers.map sanitizeDriver) perPage pg = roundResults drivers perPage pg := by
  induction drivers with
  | nil => rfl
  | cons d t ih =>
    unfold roundResults at ih ⊢
    rw [List.map_cons, List.flatMap_cons, List.flatMap_cons, ih, sanitize_call]
    cases hc : d.call pg with
    | error e => rfl
    | ok x =>
      obtain ⟨rs, tot⟩ := x
      rfl

theorem recordTotal_none (acc : List (JSStr × Int)) (name : JSStr) :
    recordTotal acc name none = acc := by
  unfold recordTotal
  cases lookupA name acc with
  | none => rfl
  | some t => rfl

theorem totalsStep_error (pg : Nat) (a : List (JSStr × Int)) (d : HDriver) (e : Unit)
    (hc : d.call pg = Except.error e) : totalsStep pg a d = a := by
  unfold totalsStep
  rw [hc]

theorem totalsStep_ok (pg : Nat) (a : List (JSStr × Int)) (d : HDriver)
    (rs : List RawResult) (tot : Option Int)
    (hc : d.call pg = Except.ok (rs, tot)) : totalsStep pg a d = recordTotal a d.name tot := by
  unfold totalsStep
  rw [hc]

theorem totalsStep_sanitize (pg : Nat) (a : List (JSStr × Int)) (d : HDriver) :
    totalsStep pg a (sanitizeDriver d) = totalsStep pg a d := by
  cases hc : d.call pg with
  | error e =>
    have hc2 : (sanitizeDriver d).call pg = Except.ok ([], none) := by
      rw [sanitize_call, hc]
    rw [totalsStep_ok pg a _ [] none hc2, totalsStep_error pg a d e hc]
    exact recordTotal_none a _
  | ok x =>
    obtain ⟨rs, tot⟩ := x
    have hc2 : (sanitizeDriver d).call pg = Except.ok (rs, tot) := by
      rw [sanitize_call, hc]
    rw [totalsStep_ok pg a _ rs tot hc2, totalsStep_ok pg a d rs tot hc]
    rfl

theorem roundTotals_sanitize (drivers : List HDriver) (pg : Nat) (acc : List (JSStr × Int)) :
    roundTotals (drivers.map sanitizeDriver) pg acc = roundTotals drivers pg acc := by
  induction drivers generalizing acc with
  | nil => rfl
  | cons d t ih =>
    unfold roundTotals at ih ⊢
    rw [List.map_cons, List.foldl_cons, List.foldl_cons, totalsStep_sanitize]
    exact ih _

theorem stepRound_sanitize (drivers : List HDriver) (perPage pg : Nat) (st : LoopState) :
    stepRound (drivers.map sanitizeDriver) perPage pg st = stepRound drivers perPage pg st := by
  unfold stepRound
  rw [roundResults_sanitize, roundTotals_sanitize]

theorem searchLoop_sanitize (drivers : List HDriver) (perPage targetCount fuel pg : Nat)
    (st : LoopState) :
    searchLoop (drivers.map sanitizeDriver) perPage targetCount fuel pg st =
      searchLoop drivers perPage targetCount fuel pg st := by
  induction fuel generalizing pg st with
  | zero => rfl
  | succ fuel ih =>
    rw [searchLoop, searchLoop, stepRound_sanitize]
    by_cases h1 : st.allResults.length < targetCount
    · rw [if_pos h1, if_pos h1]
      by_cases h2 : targetCount ≤ (stepRound drivers perPage pg st).allResults.length
      · rw [if_pos h2, if_pos h2]
      · rw [if_neg h2, if_neg h2, ih]
    · rw [if_neg h1, if_neg h1]

/-- C1: the hybrid driver's search is a total function of the drivers'
settled outcomes (it never throws or rejects: `Promise.allSettled` catches
every rejection and timeout, both modelled as `.error`), and its value does
not change when every failed or timed-out driver call is replaced by a
fulfilled call with zero results and no total — each failing driver
contributes exactly nothing for its round, while the fulfilled drivers'
results are still returned and merged. -/
theorem hybrid_search_failure_isolation (drivers : List HDriver) (query : JSStr)
    (page perPage : Nat) (hd : ¬ drivers = []) (hq : ¬ jsTrim query = []) :
    hybridSearch drivers query page perPage =
      hybridSearch (drivers.map sanitizeDriver) query page perPage := by
  unfold hybridSearch
  rw [if_neg hq, if_neg hq]
  simp only [searchLoop_sanitize]

/-- A driver that always rejects (or times out). -/
def exDrvErr : HDriver := ⟨"derr".data, 1, fun _ => Except.error ()⟩

/-- C1, witness. -/
theorem hybrid_search_failure_isolation_witness :
    hybridSearch [exDrvA, exDrvErr] "q".data 1 10 =
      hybridSearch ([exDrvA, exDrvErr].map sanitizeDriver) "q".data 1 10 :=
  hybrid_search_failure_isolation [exDrvA, exDrvErr] "q".data 1 10
    (List.cons_ne_nil _ _) (by decide)

/-- The total a driver reports on one page, after the positivity filter. -/
def reportOf (d : HDriver) (p : Nat) : Option Int :=
  match d.call p with
  | Except.ok (_, some t) => if 0 < t then some t else none
  | _ => none

/-- The first positive total a driver reports over a page sequence. -/
def firstReported (d : HDriver) (pages : List Nat) : Option Int :=
  pages.findSome? (reportOf d)

/-- Folding whole rounds of totals recording over a page sequence. -/
def foldPages (drivers : List HDriver) (acc : List (JSStr × Int)) (pages : List Nat) :
    List (JSStr × Int) :=
  pages.foldl (fun a p => roundTotals drivers p a) acc

theorem lookupA_append (k : JSStr) (l1 l2 : List (JSStr × α)) :
    lookupA k (l1 ++ l2) =
      match lookupA k l1 with
      | some v => some v
      | none => lookupA k l2 := by
  induction l1 with
  | nil => rfl
  | cons p t ih =>
    obtain ⟨k1, v1⟩ := p
    show (if k = k1 then some v1 else lookupA k (t ++ l2)) =
      match (if k = k1 then some v1 else lookupA k t) with
      | some v => some v
      | none => lookupA k l2
    by_cases h : k = k1
    · rw [if_pos h, if_pos h]
    · rw [if_neg h, if_neg h, ih]

theorem lookupA_recordTotal_ne (acc : List (JSStr × Int)) (name k : JSStr) (tot : Option Int)
    (h : ¬ k = name) : lookupA k (recordTotal acc name tot) = lookupA k acc := by
  unfold recordTotal
  cases lookupA name acc with
  | some t => rfl
  | none =>
    cases tot with
    | none => rfl
    | some t =>
      show lookupA k (if 0 < t then acc ++ [(name, t)] else acc) = lookupA k acc
      by_cases hp : 0 < t
      · rw [if_pos hp, lookupA_append]
        cases hacc : lookupA k acc with
        | some v => rfl
        | none =>
          show (if k = name then some t else lookupA k ([] : List (JSStr × Int))) = none
          rw [if_neg h]
          rfl
      · rw [if_neg hp]

theorem lookupA_recordTotal_self (acc : List (JSStr × Int)) (name : JSStr) (tot : Option Int) :
    lookupA name (recordTotal acc name tot) =
      match lookupA name acc with
      | some t => some t
      | none =>
        match tot with
        | some t => if 0 < t then some t else none
        | none => none := by
  unfold recordTotal
  cases hacc : lookupA name acc with
  | some t =>
    show lookupA name acc = some t
    exact hacc
  | none =>
    cases tot with
    | none =>
      show lookupA name acc = none
      exact hacc
    | some t =>
      show lookupA name (if 0 < t then acc ++ [(name, t)] else acc) =
        (if 0 < t then some t else none)
      by_cases hp : 0 < t
      · rw [if_pos hp, if_pos hp, lookupA_append, hacc]
        show (if name = name then some t else lookupA name ([] : List (JSStr × Int))) = some t
        rw [if_pos rfl]
      · rw [if_neg hp, if_neg hp, hacc]

theorem lookupA_roundTotals_notin (t : List HDriver) (p : Nat) (acc : List (JSStr × Int))
    (k : JSStr) (hnotin : ¬ k ∈ t.map (fun d => d.name)) :
    lookupA k (roundTotals t p acc) = lookupA k acc := by
  induction t generalizing acc with
  | nil => rfl
  | cons d2 rest ih =>
    have hne : ¬ k = d2.name := by
      intro e
      exact hnotin (by rw [List.map_cons, e]; exact List.mem_cons_self _ _)
    have hnotin2 : ¬ k ∈ rest.map (fun d => d.name) := by
      intro hm
      exact hnotin (by rw [List.map_cons]; exact List.mem_cons_of_mem _ hm)
    unfold roundTotals at ih ⊢
    rw [List.foldl_cons, ih _ hnotin2]
    cases hc : d2.call p with
    | error e => rw [totalsStep_error p acc d2 e hc]
    | ok x =>
      obtain ⟨rs, tot⟩ := x
      rw [totalsStep_ok p acc d2 rs tot hc]
      exact lookupA_recordTotal_ne acc d2.name k tot hne

theorem lookupA_totalsStep_ne (p : Nat) (acc : List (JSStr × Int)) (d1 : HDriver) (k : JSStr)
    (hne : ¬ k = d1.name) : lookupA k (totalsStep p acc d1) = lookupA k acc := by
  cases hc : d1.call p with
  | error e => rw [totalsStep_error p acc d1 e hc]
  | ok x =>
    obtain ⟨rs, tot⟩ := x
    rw [totalsStep_ok p acc d1 rs tot hc]
    exact lookupA_recordTotal_ne acc d1.name k tot hne

theorem lookupA_roundTotals (drivers : List HDriver) (p : Nat) (d : HDriver)
    (hd : d ∈ drivers) (hnd : (drivers.map (fun x => x.name)).Nodup)
    (acc : List (JSStr × Int)) :
    lookupA d.name (roundTotals drivers p acc) =
      match lookupA d.name acc with
      | some t => some t
      | none => reportOf d p := by
  induction drivers generalizing acc with
  | nil => simp at hd
  | cons d1 t ih =>
    rw [List.map_cons, List.nodup_cons] at hnd
    obtain ⟨hnotin, hndt⟩ := hnd
    have hstep : roundTotals (d1 :: t) p acc = roundTotals t p (totalsStep p acc d1) := rfl
    rw [hstep]
    rcases List.mem_cons.mp hd with heq | hmem
    · subst heq
      have hni : ¬ d.name ∈ t.map (fun x => x.name) := hnotin
      rw [lookupA_roundTotals_notin t p _ d.name hni]
      cases hc : d.call p with
      | error e =>
        rw [totalsStep_error p acc d e hc]
        unfold reportOf
        rw [hc]
        cases lookupA d.name acc with
        | some tv => rfl
        | none => rfl
      | ok x =>
        obtain ⟨rs, tot⟩ := x
        rw [totalsStep_ok p acc d rs tot hc, lookupA_recordTotal_self]
        unfold reportOf
        rw [hc]
        cases lookupA d.name acc with
        | some tv => rfl
        | none =>
          cases tot with
          | some tv => rfl
          | none => rfl
    · have hne : ¬ d.name = d1.name := by
        intro e
        exact hnotin (e ▸ List.mem_map_of_mem (fun x => x.name) hmem)
      rw [ih hmem hndt (totalsStep p acc d1), lookupA_totalsStep_ne p acc d1 d.name hne]

theorem lookupA_foldPages (drivers : List HDriver) (d : HDriver)
    (hd : d ∈ drivers) (hnd : (drivers.map (fun x => x.name)).Nodup)
    (pages : List Nat) (acc : List (JSStr × Int)) :
    lookupA d.name (foldPages drivers acc pages) =
      match lookupA d.name acc with
      | some t => some t
      | none => firstReported d pages := by
  induction pages generalizing acc with
  | nil =>
    show lookupA d.name acc = _
    cases lookupA d.name acc with
    | some tv => rfl
    | none => rfl
  | cons p ps ih =>
    have hstep : foldPages drivers acc (p :: ps) =
        foldPages drivers (roundTotals drivers p acc) ps := rfl
    rw [hstep, ih (roundTotals drivers p acc), lookupA_roundTotals drivers p d hd hnd acc]
    unfold firstReported
    rw [List.findSome?_cons]
    cases lookupA d.name acc with
    | some tv => rfl
    | none =>
      cases reportOf d p with
      | some tv => rfl
      | none => rfl

theorem searchLoop_totals (drivers : List HDriver) (perPage targetCount : Nat)
    (fuel pg : Nat) (st : LoopState) :
    ∃ r, r ≤ fuel ∧
      (searchLoop drivers perPage targetCount fuel pg st).rounds = st.rounds + r ∧
      (searchLoop drivers perPage targetCount fuel pg st).totals =
        foldPages drivers st.totals (List.range' pg r) := by
  induction fuel generalizing pg st with
  | zero => exact ⟨0, Nat.le_refl 0, (Nat.add_zero _).symm, rfl⟩
  | succ fuel ih =>
    rw [searchLoop]
    by_cases h1 : st.allResults.length < targetCount
    · rw [if_pos h1]
      by_cases h2 : targetCount ≤ (stepRound drivers perPage pg st).allResults.length
      · rw [if_pos h2]
        refine ⟨1, Nat.succ_le_succ (Nat.zero_le fuel), rfl, ?_⟩
        rw [List.range'_one]
        rfl
      · rw [if_neg h2]
        obtain ⟨r, hle, hrounds, htotals⟩ := ih (pg + 1) (stepRound drivers perPage pg st)
        refine ⟨r + 1, Nat.succ_le_succ hle, ?_, ?_⟩
        · rw [hrounds]
          show st.rounds + 1 + r = _
          omega
        · rw [htotals, List.range'_succ]
          rfl
    · rw [if_neg h1]
      exact ⟨0, Nat.zero_le _, (Nat.add_zero _).symm, rfl⟩

theorem mem_recordTotal (acc : List (JSStr × Int)) (name : JSStr) (tot : Option Int)
    (q : JSStr × Int) (hq : q ∈ recordTotal acc name tot) :
    q ∈ acc ∨ (q.1 = name ∧ 0 < q.2) := by
  unfold recordTotal at hq
  split at hq
  · exact Or.inl hq
  · split at hq
    · exact Or.inl hq
    · rename_i t
      split at hq
      · rename_i hp
        rcases List.mem_append.mp hq with h1 | h1
        · exact Or.inl h1
        · rcases List.mem_singleton.mp h1 with rfl
          exact Or.inr ⟨rfl, hp⟩
      · exact Or.inl hq

theorem mem_roundTotals (drivers : List HDriver) (p : Nat) (acc : List (JSStr × Int))
    (q : JSStr × Int) (hq : q ∈ roundTotals drivers p acc) :
    q ∈ acc ∨ (∃ d ∈ drivers, q.1 = d.name ∧ 0 < q.2) := by
  induction drivers generalizing acc with
  | nil => exact Or.inl hq
  | cons d1 t ih =>
    have hstep : roundTotals (d1 :: t) p acc = roundTotals t p (totalsStep p acc d1) := rfl
    rw [hstep] at hq
    rcases ih (totalsStep p acc d1) hq with h1 | ⟨d, hdm, hk, hpos⟩
    · cases hc : d1.call p with
      | error e =>
        rw [totalsStep_error p acc d1 e hc] at h1
        exact Or.inl h1
      | ok x =>
        obtain ⟨rs, tot⟩ := x
        rw [totalsStep_ok p acc d1 rs tot hc] at h1
        rcases mem_recordTotal acc d1.name tot q h1 with h2 | ⟨hk, hpos⟩
        · exact Or.inl h2
        · exact Or.inr ⟨d1, List.mem_cons_self _ _, hk, hpos⟩
    · exact Or.inr ⟨d, List.mem_cons_of_mem _ hdm, hk, hpos⟩

theorem mem_foldPages (drivers : List HDriver) (pages : List Nat) (acc : List (JSStr × Int))
    (q : JSStr × Int) (hq : q ∈ foldPages drivers acc pages) :
    q ∈ acc ∨ (∃ d ∈ drivers, q.1 = d.name ∧ 0 < q.2) := by
  induction pages generalizing acc with
  | nil => exact Or.inl hq
  | cons p ps ih =>
    have hstep : foldPages drivers acc (p :: ps) =
        foldPages drivers (roundTotals drivers p acc) ps := rfl
    rw [hstep] at hq
    rcases ih (roundTotals drivers p acc) hq with h1 | h1
    · exact mem_roundTotals drivers p acc q h1
    · exact Or.inr h1

/-- C7: the hybrid search's `totalResults` is the sum of the per-driver
totals recorded once per driver — for each driver, the first positive total
it reports over the executed rounds — and falls back to the count of
deduplicated results actually gathered when no driver recorded a total.
The hypothesis that driver names are distinct reflects the interface
contract (the name is the driver's stable identifier); the totals map is
keyed by name. -/
theorem hybrid_search_total_estimate (drivers : List HDriver) (query : JSStr)
    (page perPage : Nat) (hq : ¬ jsTrim query = [])
    (hnd : (drivers.map (fun x => x.name)).Nodup) :
    ((hybridSearch drivers query page perPage).totalResults =
      some (if (searchLoop drivers perPage (page * perPage) 5 1 ⟨[], [], 0⟩).totals = []
        then ((searchLoop drivers perPage (page * perPage) 5 1 ⟨[], [], 0⟩).allResults.length : Int)
        else sumTotals (searchLoop drivers perPage (page * perPage) 5 1 ⟨[], [], 0⟩).totals)) ∧
    (∀ d ∈ drivers,
      lookupA d.name (searchLoop drivers perPage (page * perPage) 5 1 ⟨[], [], 0⟩).totals =
        firstReported d
          (List.range' 1 (searchLoop drivers perPage (page * perPage) 5 1 ⟨[], [], 0⟩).rounds)) ∧
    (∀ q ∈ (searchLoop drivers perPage (page * perPage) 5 1 ⟨[], [], 0⟩).totals,
      (∃ d ∈ drivers, q.1 = d.name) ∧ 0 < q.2) := by
  obtain ⟨r, hle, hrounds, htotals⟩ :=
    searchLoop_totals drivers perPage (page * perPage) 5 1 ⟨[], [], 0⟩
  have hmem : ∀ q ∈ (searchLoop drivers perPage (page * perPage) 5 1 ⟨[], [], 0⟩).totals,
      (∃ d ∈ drivers, q.1 = d.name) ∧ 0 < q.2 := by
    rw [htotals]
    intro q hq2
    rcases mem_foldPages drivers (List.range' 1 r) [] q hq2 with h1 | ⟨d, hdm, hk, hp⟩
    · simp at h1
    · exact ⟨⟨d, hdm, hk⟩, hp⟩
  refine ⟨?_, ?_, hmem⟩
  · rw [hybridSearch_total_eq drivers query page perPage hq]
    by_cases hemp : (searchLoop drivers perPage (page * perPage) 5 1 ⟨[], [], 0⟩).totals = []
    · rw [hemp]
      have h0 : sumTotals ([] : List (JSStr × Int)) = 0 := rfl
      rw [h0, if_neg (lt_irrefl 0), if_pos rfl]
    · have hpos : 0 < sumTotals (searchLoop drivers perPage (page * perPage) 5 1 ⟨[], [], 0⟩).totals := by
        unfold sumTotals
        refine List.sum_pos _ ?_ ?_
        · intro x hx
          rcases List.mem_map.mp hx with ⟨q, hq2, rfl⟩
          exact (hmem q hq2).2
        · intro he
          exact hemp (List.map_eq_nil_iff.mp he)
      rw [if_pos hpos, if_neg hemp]
  · intro d hd
    rw [htotals, hrounds, Nat.zero_add]
    rw [lookupA_foldPages drivers d hd hnd (List.range' 1 r) []]
    rfl

-- C7, witness: two drivers reporting totals 100 and 40 yield 140.
unseal Rat.mul Rat.inv Rat.add Rat.sub in
theorem hybrid_search_total_estimate_witness :
    (¬ jsTrim "q".data = []) ∧ (([exDrvA, exDrvB].map (fun x => x.name)).Nodup) ∧
    (hybridSearch [exDrvA, exDrvB] "q".data 1 10).totalResults = some 140 := by
  refine ⟨by decide, by decide, ?_⟩
  have h := (hybrid_search_total_estimate [exDrvA, exDrvB] "q".data 1 10
    (by decide) (by decide)).1
  rw [h]
  decide

theorem dedupSugAux_sublist (seen : List JSStr) (l : List JSStr) :
    List.Sublist (dedupSugAux seen l) l := by
  induction l generalizing seen with
  | nil => exact List.nil_sublist _
  | cons s t ih =>
    unfold dedupSugAux
    by_cases h : ¬ sugNorm s ∈ seen ∧ ¬ sugNorm s = []
    · rw [if_pos h]
      exact List.Sublist.cons₂ s (ih _)
    · rw [if_neg h]
      exact List.Sublist.cons s (ih seen)

theorem dedupSugAux_norms (seen : List JSStr) (l : List JSStr) :
    ∀ t ∈ dedupSugAux seen l, ¬ sugNorm t ∈ seen ∧ ¬ sugNorm t = [] := by
  induction l generalizing seen with
  | nil => intro t ht; simp [dedupSugAux] at ht
  | cons s rest ih =>
    unfold dedupSugAux
    by_cases h : ¬ sugNorm s ∈ seen ∧ ¬ sugNorm s = []
    · rw [if_pos h]
      intro t ht
      rcases List.mem_cons.mp ht with rfl | ht2
      · exact h
      · have h2 := ih (sugNorm s :: seen) t ht2
        exact ⟨fun hmem => h2.1 (List.mem_cons_of_mem _ hmem), h2.2⟩
    · rw [if_neg h]
      exact ih seen

theorem dedupSugAux_pairwise (seen : List JSStr) (l : List JSStr) :
    (dedupSugAux seen l).Pairwise (fun a b => ¬ sugNorm a = sugNorm b) := by
  induction l generalizing seen with
  | nil => exact List.Pairwise.nil
  | cons s rest ih =>
    unfold dedupSugAux
    by_cases h : ¬ sugNorm s ∈ seen ∧ ¬ sugNorm s = []
    · rw [if_pos h]
      refine List.pairwise_cons.mpr ⟨?_, ih _⟩
      intro t ht he
      exact (dedupSugAux_norms _ _ t ht).1 (he ▸ List.mem_cons_self _ _)
    · rw [if_neg h]
      exact ih seen

theorem dedupSugAux_complete (seen : List JSStr) (l : List JSStr) :
    ∀ s ∈ l, ¬ sugNorm s ∈ seen → ¬ sugNorm s = [] →
      ∃ t ∈ dedupSugAux seen l, sugNorm t = sugNorm s := by
  induction l generalizing seen with
  | nil => intro s hs; simp at hs
  | cons s1 rest ih =>
    intro s hs hni hne
    unfold dedupSugAux
    rcases List.mem_cons.mp hs with rfl | hs2
    · rw [if_pos ⟨hni, hne⟩]
      exact ⟨s, List.mem_cons_self _ _, rfl⟩
    · by_cases h : ¬ sugNorm s1 ∈ seen ∧ ¬ sugNorm s1 = []
      · rw [if_pos h]
        by_cases hsame : sugNorm s = sugNorm s1
        · exact ⟨s1, List.mem_cons_self _ _, hsame.symm⟩
        · obtain ⟨t, ht, hte⟩ := ih (sugNorm s1 :: seen) s hs2
            (by
              intro hmem
              rcases List.mem_cons.mp hmem with he | hmem2
              · exact hsame he
              · exact hni hmem2) hne
          exact ⟨t, List.mem_cons_of_mem _ ht, hte⟩
      · rw [if_neg h]
        exact ih seen s hs2 hni hne

theorem dedupSugAux_first (seen : List JSStr) (l : List JSStr) :
    ∀ t ∈ dedupSugAux seen l,
      l.find? (fun s => decide (sugNorm s = sugNorm t)) = some t := by
  induction l generalizing seen with
  | nil => intro t ht; simp [dedupSugAux] at ht
  | cons s rest ih =>
    intro t ht
    unfold dedupSugAux at ht
    by_cases h : ¬ sugNorm s ∈ seen ∧ ¬ sugNorm s = []
    · rw [if_pos h] at ht
      rcases List.mem_cons.mp ht with rfl | ht2
      · exact List.find?_cons_of_pos rest (by simp)
      · have hnt := dedupSugAux_norms (sugNorm s :: seen) rest t ht2
        have hne : ¬ sugNorm s = sugNorm t :=
          fun he => hnt.1 (he ▸ List.mem_cons_self _ _)
        rw [List.find?_cons_of_neg rest (by simpa using hne)]
        exact ih (sugNorm s :: seen) t ht2
    · rw [if_neg h] at ht
      have hnt := dedupSugAux_norms seen rest t ht
      have hne : ¬ sugNorm s = sugNorm t := by
        intro he
        rcases not_and_or.mp h with h1 | h1
        · exact hnt.1 (he ▸ not_not.mp h1)
        · exact hnt.2 (by rw [← he, not_not.mp h1])
      rw [List.find?_cons_of_neg rest (by simpa using hne)]
      exact ih seen t ht

/-- The two suggestion drivers of the concrete example. -/
def exSugA : SDriver := ⟨"d1".data, some (Except.ok ["ab".data, "AB".data, "cd".data])⟩

/-- The second suggestion driver of the concrete example. -/
def exSugB : SDriver := ⟨"d2".data, some (Except.ok ["cd".data, "ef".data])⟩

/-- C9: the hybrid driver's suggest deduplicates the concatenation of the
fulfilled drivers' suggestion lists case-insensitively on trimmed text: the
output is a subsequence of the concatenation (stable order, no re-sorting),
its normalized entries are pairwise distinct, every nonempty-normalized
input suggestion is represented, each kept entry is the first occurrence of
its normalization (first-encountered casing), and the concrete example
merges to `["ab", "cd", "ef"]`. -/
theorem hybrid_suggest_dedup (drivers : List SDriver) (query : JSStr)
    (hq : ¬ jsTrim query = []) :
    List.Sublist (hybridSuggest drivers query) (collectSuggestions drivers) ∧
    (hybridSuggest drivers query).Pairwise (fun a b => ¬ sugNorm a = sugNorm b) ∧
    (∀ s ∈ collectSuggestions drivers, ¬ sugNorm s = [] →
      ∃ t ∈ hybridSuggest drivers query, sugNorm t = sugNorm s) ∧
    (∀ t ∈ hybridSuggest drivers query,
      (collectSuggestions drivers).find? (fun s => decide (sugNorm s = sugNorm t)) = some t) ∧
    hybridSuggest [exSugA, exSugB] "q".data = ["ab".data, "cd".data, "ef".data] := by
  have he : hybridSuggest drivers query = dedupSugAux [] (collectSuggestions drivers) := by
    unfold hybridSuggest deduplicateSuggestions
    rw [if_neg hq]
  rw [he]
  refine ⟨dedupSugAux_sublist [] _, dedupSugAux_pairwise [] _, ?_, dedupSugAux_first [] _,
    by decide⟩
  intro s hs hne
  exact dedupSugAux_complete [] _ s hs (by simp) hne

-- C9, witness.
theorem hybrid_suggest_dedup_witness :
    (¬ jsTrim "q".data = []) ∧
    hybridSuggest [exSugA, exSugB] "q".data = ["ab".data, "cd".data, "ef".data] :=
  ⟨by decide, (hybrid_suggest_dedup [exSugA, exSugB] "q".data (by decide)).2.2.2.2⟩

theorem lookupA_removeA_self (k : JSStr) (l : List (JSStr × α))
    (hnd : (l.map Prod.fst).Nodup) : lookupA k (removeA k l) = none := by
  induction l with
  | nil => rfl
  | cons p t ih =>
    obtain ⟨k1, v1⟩ := p
    rw [List.map_cons, List.nodup_cons] at hnd
    unfold removeA
    by_cases h : k = k1
    · rw [if_pos h]
      rw [lookupA_eq_none_iff]
      intro q hq he
      have hm : q.1 ∈ t.map Prod.fst := List.mem_map_of_mem Prod.fst hq
      rw [← he, h] at hm
      exact hnd.1 hm
    · rw [if_neg h]
      show (if k = k1 then some v1 else lookupA k (removeA k t)) = none
      rw [if_neg h]
      exact ih hnd.2

theorem setA_nodup_keys (k : JSStr) (v : α) (l : List (JSStr × α))
    (hnd : (l.map Prod.fst).Nodup) : ((setA k v l).map Prod.fst).Nodup := by
  cases hl : lookupA k l with
  | some w =>
    rw [map_fst_setA_of_mem k v l (by rw [hl]; simp)]
    exact hnd
  | none =>
    rw [setA_eq_append k v l ((lookupA_eq_none_iff k l).mp hl), List.map_append,
      List.nodup_append]
    refine ⟨hnd, List.nodup_singleton _, ?_⟩
    intro a ha hb
    rcases List.mem_map.mp ha with ⟨q, hq, rfl⟩
    have : q.1 = k := by simpa using hb
    exact ((lookupA_eq_none_iff k l).mp hl) q hq this.symm

/-- C6: a cache `set` followed immediately by a `get` of the same key
returns the stored value, and a `get` performed strictly more than
`ttlSeconds` after the `set` misses and removes the entry instead of
returning it stale.  Times are in milliseconds, as produced by `Date.now()`
and the storage mtime; the nodup hypothesis is the storage invariant that
keys are unique. -/
theorem cache_round_trip (st : CacheState) (key : JSStr) (v : SearchResponse)
    (ttl t t2 : ℚ) (httl : 0 ≤ ttl) (hnd : (st.entries.map Prod.fst).Nodup) :
    (cacheGet ttl (cacheSet st key v t) key t).1 = some v ∧
    ((t2 - t) / 1000 > ttl →
      (cacheGet ttl (cacheSet st key v t) key t2).1 = none ∧
      lookupA key (cacheGet ttl (cacheSet st key v t) key t2).2.entries = none) := by
  have hl : lookupA key (cacheSet st key v t).entries = some (v, t) :=
    lookupA_setA_self key (v, t) st.entries
  have hget : ∀ now : ℚ, cacheGet ttl (cacheSet st key v t) key now =
      (if (now - t) / 1000 > ttl
        then (none, ⟨removeA key (cacheSet st key v t).entries⟩)
        else (some v, cacheSet st key v t)) := by
    intro now
    unfold cacheGet
    rw [hl]
  constructor
  · rw [hget t, if_neg (by rw [sub_self, zero_div]; exact not_lt.mpr httl)]
  · intro hexp
    rw [hget t2, if_pos hexp]
    refine ⟨rfl, ?_⟩
    exact lookupA_removeA_self key _ (setA_nodup_keys key (v, t) st.entries hnd)

/-- C6, witness. -/
theorem cache_round_trip_witness :
    (0 : ℚ) ≤ 60 ∧ ((⟨[]⟩ : CacheState).entries.map Prod.fst).Nodup ∧
    (cacheGet 60 (cacheSet ⟨[]⟩ "k".data ⟨[], none, none⟩ 1000) "k".data 1000).1 =
      some ⟨[], none, none⟩ ∧
    (((100000 : ℚ) - 1000) / 1000 > 60 →
      (cacheGet 60 (cacheSet ⟨[]⟩ "k".data ⟨[], none, none⟩ 1000) "k".data 100000).1 = none) := by
  refine ⟨by norm_num, by simp, ?_, ?_⟩
  · exact (cache_round_trip ⟨[]⟩ "k".data ⟨[], none, none⟩ 60 1000 100000
      (by norm_num) (by simp)).1
  · intro hexp
    exact ((cache_round_trip ⟨[]⟩ "k".data ⟨[], none, none⟩ 60 1000 100000
      (by norm_num) (by simp)).2 hexp).1

/-- C10: the manager returned by `createPolySearch` always exposes a
`suggest` function; when the driver implements none, calling it with any
options resolves to the empty array (it is total: never undefined, never
throwing). -/
theorem createPolySearch_suggest_fallback (d : PolyDriver) (hd : d.suggest = none)
    (q : JSStr) : (createPolySearch d).suggest q = [] := by
  unfold createPolySearch
  rw [hd]

/-- A driver without a suggest implementation. -/
def exPolyDriver : PolyDriver := ⟨fun _ => ⟨[], none, none⟩, none⟩

/-- C10, witness. -/
theorem createPolySearch_suggest_fallback_witness :
    exPolyDriver.suggest = none ∧ (createPolySearch exPolyDriver).suggest "q".data = [] :=
  ⟨rfl, createPolySearch_suggest_fallback exPolyDriver rfl "q".data⟩
